import Mathlib

set_option maxRecDepth 2000

/-!
# Verification of the perbu/cdb 64-bit constant database

A shallow embedding of the core of the repository: the hash (`src/hash.go`),
the 64-bit little-endian codec and memory-mapped reader (`src/mmap.go`), and
the writer with its two-pass finalization (`src/unnamed/part_010`).

Modelling conventions:
* Byte strings (`[]byte`) are `List Nat`; where the source relies on a value
  being of byte type (`uint8`), the model reduces it `% 256` (the `uint32(b)`
  conversion in `cdbHash`).
* `uint32`/`uint64` arithmetic is `Nat` arithmetic with explicit `% 2^32` /
  `% 2^64` where the source can wrap.  The main reader/writer definitions are
  stated in plain `Nat` arithmetic, which coincides with the Go code whenever
  every offset and length involved is below `2^63` (no `uint64` wrap and no
  `int` cast wrap); theorems about writer-produced files carry that bound as
  a hypothesis.  A second reader, `mmapGetW`, models the `uint64` arithmetic
  and the `int(...)` casts of `readTupleMmap`/`getValueAt` exactly, and is
  used to analyse behaviour on arbitrary (corrupt) files.
* The unbounded probe loops of Go (`for { ... }`) run at most `table.length`
  iterations because the slot index returns to its starting value after
  exactly `table.length` steps; they are modelled by structural recursion on
  that iteration count.
* The writer's `ErrTooMuchData` capacity guard in `Put` (a heuristic estimate
  against the signed 64-bit limit) is not modelled; theorems instead carry
  the exact size bound where they need it.
-/

/-- `src/hash.go` `cdbHash`: djb2-xor over the bytes, seeded at 5381, with
wrapping 32-bit arithmetic (`v = ((v << 5) + v) ^ uint32(b)`). -/
def cdbHash (data : List Nat) : Nat :=
  data.foldl (fun v b => Nat.xor (((v <<< 5) + v) % 2 ^ 32) (b % 256)) 5381

/-- `src/unnamed/part_010` `indexSize = 256 * 16`. -/
def indexSize : Nat := 256 * 16

/-- Little-endian 64-bit encoding of a value (the writing half of
`binary.LittleEndian.PutUint64` / `writeTuple64` in `src/unnamed/part_010`). -/
def le64 (n : Nat) : List Nat :=
  [n % 256, n / 256 % 256, n / 256 ^ 2 % 256, n / 256 ^ 3 % 256,
   n / 256 ^ 4 % 256, n / 256 ^ 5 % 256, n / 256 ^ 6 % 256, n / 256 ^ 7 % 256]

/-- Value of a little-endian byte list (least significant byte first). -/
def leVal : List Nat → Nat
  | [] => 0
  | b :: bs => b + 256 * leVal bs

/-- `binary.LittleEndian.Uint64(data[off : off+8])`: read 8 bytes at `off`.
(Callers in the source either bounds-check first or read inside the
4096-byte head index.) -/
def readLE64 (data : List Nat) (off : Nat) : Nat :=
  leVal ((data.drop off).take 8)

/-- `src/unnamed/part_010` `table`: a head-index entry. -/
structure table where
  offset : Nat
  length : Nat
deriving DecidableEq, Repr

/-- `src/mmap.go` `readTupleMmap`: bounds-checked read of two 64-bit
little-endian integers; out of range yields `(0, 0)`. -/
def readTupleMmap (data : List Nat) (offset : Nat) : Nat × Nat :=
  if offset + 16 > data.length then (0, 0)
  else (readLE64 data offset, readLE64 data (offset + 8))

/-- `src/mmap.go` `readTableAt`: decode the head-index entry of a bucket
(an unchecked read inside `[0, 4096)`). -/
def readTableAt (data : List Nat) (tableNum : Nat) : table :=
  { offset := readLE64 data (tableNum * 16)
    length := readLE64 data (tableNum * 16 + 8) }

/-- `src/mmap.go` `getValueAt`: read the record header at `offset`, compare
the stored key with `expectedKey`, and return the value on a match.  `none`
models Go's `nil` (not found / bounds miss). -/
def getValueAt (data : List Nat) (offset : Nat) (expectedKey : List Nat) :
    Option (List Nat) :=
  if offset + 16 > data.length then none
  else
    let keyLength := (readTupleMmap data offset).1
    let valueLength := (readTupleMmap data offset).2
    if keyLength ≠ expectedKey.length then none
    else
      let dataStart := offset + 16
      let dataEnd := dataStart + keyLength + valueLength
      if dataEnd > data.length then none
      else
        let key := (data.drop dataStart).take keyLength
        if key ≠ expectedKey then none
        else some ((data.drop (dataStart + keyLength)).take valueLength)

/-- The probe loop of `src/mmap.go` `MmapCDB.Get`, by recursion on the
remaining iteration count: the Go loop breaks when the slot index returns to
`startingSlot`, i.e. after at most `tLen` iterations, so it is started with
`fuel = tLen`. -/
def getProbe (data : List Nat) (tOff tLen h : Nat) (key : List Nat) :
    Nat → Nat → Option (List Nat)
  | 0, _ => none
  | fuel + 1, slot =>
    let t := readTupleMmap data (tOff + 16 * slot)
    if t.1 = 0 then none
    else if t.1 = h then
      match getValueAt data t.2 key with
      | some value => some value
      | none => getProbe data tOff tLen h key fuel ((slot + 1) % tLen)
    else getProbe data tOff tLen h key fuel ((slot + 1) % tLen)

/-- `src/mmap.go` `MmapCDB.Get` (identical to `InMemoryCDB.Get`): hash the
key, decode the bucket's head-index entry, and probe its hash table. -/
def mmapGet (data : List Nat) (key : List Nat) : Option (List Nat) :=
  let hash := cdbHash key
  let t := readTableAt data (hash % 256)
  if t.length = 0 then none
  else getProbe data t.offset t.length hash key t.length (hash / 256 % t.length)

/-- `src/mmap.go` `Mmap` / `NewInMemory`: opening requires `size ≥ indexSize`;
the mapped contents are the file bytes themselves. -/
def mmapOpen (data : List Nat) : Option (List Nat) :=
  if data.length < indexSize then none else some data

/-- `src/unnamed/part_010` `entry`: an in-memory `(hash, offset)` pair
recorded by `Put`; also the layout of a written hash-table slot. -/
structure entry where
  hash : Nat
  offset : Nat
deriving DecidableEq, Repr

instance : Inhabited entry := ⟨⟨0, 0⟩⟩

/-- The writer state that determines the finalized file: the per-bucket entry
lists, the running absolute offset, and the record bytes written so far
(`src/unnamed/part_010` `Writer`, named `CdbWriter` here since Mathlib already
has a `Writer`; the buffered I/O plumbing is not modelled). -/
structure CdbWriter where
  entries : Nat → List entry
  bufferedOffset : Nat
  dataBytes : List Nat

/-- `src/unnamed/part_010` `NewWriter`: reserve the 4096-byte head index and
start writing at `bufferedOffset = indexSize`. -/
def newWriter : CdbWriter :=
  { entries := fun _ => [], bufferedOffset := indexSize, dataBytes := [] }

/-- `src/unnamed/part_010` `Writer.Put`: record `(hash, offset)` in the
bucket `hash & 0xff`, append the record bytes, and advance the offset.
(The `ErrTooMuchData` capacity estimate is not modelled; see the header.) -/
def writerPut (w : CdbWriter) (key value : List Nat) : CdbWriter :=
  let hash := cdbHash key
  let t := hash % 256
  { entries := fun i =>
      if i = t then w.entries i ++ [⟨hash, w.bufferedOffset⟩] else w.entries i
    bufferedOffset := w.bufferedOffset + (16 + key.length + value.length)
    dataBytes := w.dataBytes ++
      (le64 key.length ++ le64 value.length ++ key ++ value) }

/-- A sequence of `Put` calls. -/
def runPuts (w : CdbWriter) : List (List Nat × List Nat) → CdbWriter
  | [] => w
  | (k, v) :: ps => runPuts (writerPut w k v) ps

/-- The probe loop of `Writer.doFinalize`'s slot placement: linearly probe
from `slot` for a slot whose `hash` field is `0`; the loop gives up (Go:
`errors.New("hash table full")`) after `size` steps, when the index returns
to its starting value. -/
def probeFind (tbl : List entry) (size : Nat) : Nat → Nat → Option Nat
  | 0, _ => none
  | fuel + 1, slot =>
    if (tbl.getD slot default).hash = 0 then some slot
    else probeFind tbl size fuel ((slot + 1) % size)

/-- Place one entry by open addressing, starting at `(hash >> 8) % size`
(`src/unnamed/part_010` `doFinalize`, inner `for` loop). -/
def placeEntry (tbl : List entry) (e : entry) : Option (List entry) :=
  match probeFind tbl tbl.length tbl.length (e.hash / 256 % tbl.length) with
  | some slot => some (tbl.set slot e)
  | none => none

/-- Insert all of a bucket's entries, in insertion order, into a slot array
(`doFinalize`: `for _, entry := range tableEntries`). -/
def buildHashTable : List entry → List entry → Option (List entry)
  | tbl, [] => some tbl
  | tbl, e :: es =>
    match placeEntry tbl e with
    | some tbl' => buildHashTable tbl' es
    | none => none

/-- Serialize a slot array: each slot as `(hash, offset)`, two 64-bit
little-endian integers (`doFinalize`: `writeTuple64(uint64(entry.hash),
entry.offset)`). -/
def tableBytes (tbl : List entry) : List Nat :=
  tbl.flatMap fun e => le64 e.hash ++ le64 e.offset

/-- The hash-table pass of `doFinalize` over a list of bucket numbers:
returns the 256 `(tableOffset, tableSize)` pairs and the concatenated table
bytes.  An empty bucket contributes `(0, 0)` and no bytes; a non-empty
bucket's table has `2 · n` slots and is written at the running offset. -/
def finalizeTables (ef : Nat → List entry) (off : Nat) :
    List Nat → Option (List (Nat × Nat) × List Nat)
  | [] => some ([], [])
  | b :: bs =>
    let tableEntries := ef b
    let tableSize := 2 * tableEntries.length
    if tableSize = 0 then
      match finalizeTables ef off bs with
      | some (tos, bytes) => some ((0, 0) :: tos, bytes)
      | none => none
    else
      match buildHashTable (List.replicate tableSize default) tableEntries with
      | some tbl =>
        match finalizeTables ef (off + 16 * tableSize) bs with
        | some (tos, bytes) => some ((off, tableSize) :: tos, tableBytes tbl ++ bytes)
        | none => none
      | none => none

/-- The head index written by the final pass of `doFinalize`: for each bucket
in order, its `(tableOffset, tableSize)` pair as two 64-bit little-endian
integers. -/
def headIndexBytes (tos : List (Nat × Nat)) : List Nat :=
  tos.flatMap fun p => le64 p.1 ++ le64 p.2

/-- The complete finalized file produced by a sequence of `Put` calls
followed by `Close`/`Freeze`: head index, then the data region, then the
hash tables (`NewWriter`, `Writer.Put`, `Writer.doFinalize`). -/
def mkFile (ps : List (List Nat × List Nat)) : Option (List Nat) :=
  let w := runPuts newWriter ps
  match finalizeTables w.entries w.bufferedOffset (List.range 256) with
  | some (tos, tbytes) => some (headIndexBytes tos ++ w.dataBytes ++ tbytes)
  | none => none

/-- The end-of-data computation of `src/mmap.go` `MmapCDB.All`: the minimum
hash-table offset over buckets with `length > 0`, starting from the file
size.  (The source's follow-up `if endPos == len { if endPos == indexSize
{...} }` branch assigns `endPos` a value it already has and is a no-op.) -/
def scanEnd (data : List Nat) : Nat :=
  (List.range 256).foldl
    (fun endPos i =>
      let t := readTableAt data i
      if 0 < t.length ∧ t.offset < endPos then t.offset else endPos)
    data.length

/-- The record walk of `MmapCDB.All`: from `pos`, repeatedly decode a record
header, bounds-check, emit the pair and advance by the record size.  The Go
loop terminates because each record advances `pos` by at least 16 bytes. -/
def scanFrom (data : List Nat) (endPos : Nat) (pos : Nat) :
    List (List Nat × List Nat) :=
  if pos < endPos then
    if pos + 16 > data.length then []
    else
      let keyLength := (readTupleMmap data pos).1
      let valueLength := (readTupleMmap data pos).2
      let totalSize := 16 + keyLength + valueLength
      if pos + totalSize > data.length then []
      else
        ((data.drop (pos + 16)).take keyLength,
          (data.drop (pos + 16 + keyLength)).take valueLength)
          :: scanFrom data endPos (pos + totalSize)
  else []
termination_by endPos - pos
decreasing_by omega

/-- `src/mmap.go` `MmapCDB.All` run to completion (the claims quantify over
full scans; early termination by the consumer only truncates the list). -/
def scanAll (data : List Nat) : List (List Nat × List Nat) :=
  scanFrom data (scanEnd data) indexSize

/-- `src/mmap.go` `MmapCDB.Keys`: the keys of the `All` traversal. -/
def scanKeys (data : List Nat) : List (List Nat) :=
  (scanAll data).map Prod.fst

/-- `src/mmap.go` `MmapCDB.Values`: the values of the `All` traversal. -/
def scanValues (data : List Nat) : List (List Nat) :=
  (scanAll data).map Prod.snd

/-- The probe loop of `MmapCDB.Get` again, counting the number of executed
loop iterations (slot reads) instead of producing the value. -/
def getProbeSteps (data : List Nat) (tOff tLen h : Nat) (key : List Nat) :
    Nat → Nat → Nat
  | 0, _ => 0
  | fuel + 1, slot =>
    let t := readTupleMmap data (tOff + 16 * slot)
    if t.1 = 0 then 1
    else if t.1 = h then
      match getValueAt data t.2 key with
      | some _ => 1
      | none => 1 + getProbeSteps data tOff tLen h key fuel ((slot + 1) % tLen)
    else 1 + getProbeSteps data tOff tLen h key fuel ((slot + 1) % tLen)

/-- Number of probe steps performed by `MmapCDB.Get` (0 when the bucket's
table is empty and the loop is never entered). -/
def mmapGetSteps (data : List Nat) (key : List Nat) : Nat :=
  let hash := cdbHash key
  let t := readTableAt data (hash % 256)
  if t.length = 0 then 0
  else getProbeSteps data t.offset t.length hash key t.length (hash / 256 % t.length)

/-! ## Wrap-exact reader

For claim analysis on arbitrary (possibly corrupt) mapped contents the
`uint64` arithmetic and the `int(...)` conversions of `src/mmap.go` must be
modelled exactly: `int(offset)` of a `uint64` on a 64-bit platform reinterprets
the value as a signed 64-bit integer, and Go slice expressions
`data[lo:hi]` panic when `lo > hi` or `hi > len(data)`.  In the model a Go
runtime panic is the `none` of an outer `Option` layer. -/

/-- Reinterpret a `uint64` value as Go's 64-bit `int`. -/
def i64 (x : Nat) : Int := if x < 2 ^ 63 then (x : Int) else (x : Int) - 2 ^ 64

/-- Wrapping signed 64-bit addition result. -/
def wrap64i (z : Int) : Int := (z + 2 ^ 63) % 2 ^ 64 - 2 ^ 63

/-- `readTupleMmap` with exact cast semantics: `int(offset)+16 > len(data)`
is evaluated in `int` arithmetic; the two slice reads panic (`none`) when
their wrapped bounds are invalid. -/
def readTupleMmapW (data : List Nat) (offset : Nat) : Option (Nat × Nat) :=
  if wrap64i (i64 offset + 16) > (data.length : Int) then some (0, 0)
  else
    if offset ≤ (offset + 8) % 2 ^ 64 ∧ (offset + 8) % 2 ^ 64 ≤ data.length ∧
        (offset + 8) % 2 ^ 64 ≤ (offset + 16) % 2 ^ 64 ∧
        (offset + 16) % 2 ^ 64 ≤ data.length then
      some (readLE64 data offset, readLE64 data ((offset + 8) % 2 ^ 64))
    else none

/-- `getValueAt` with exact cast semantics.  Outer `none` is a Go panic;
`some none` is Go's `nil` (not found). -/
def getValueAtW (data : List Nat) (offset : Nat) (expectedKey : List Nat) :
    Option (Option (List Nat)) :=
  if wrap64i (i64 offset + 16) > (data.length : Int) then some none
  else
    match readTupleMmapW data offset with
    | none => none
    | some (keyLength, valueLength) =>
      if i64 keyLength ≠ (expectedKey.length : Int) then some none
      else
        let dataStart := i64 ((offset + 16) % 2 ^ 64)
        let dataEnd := wrap64i (dataStart + i64 ((keyLength + valueLength) % 2 ^ 64))
        if dataEnd > (data.length : Int) then some none
        else
          let keyEnd := wrap64i (dataStart + i64 keyLength)
          if 0 ≤ dataStart ∧ dataStart ≤ keyEnd ∧ keyEnd ≤ (data.length : Int) then
            let key := (data.drop dataStart.toNat).take (keyEnd - dataStart).toNat
            if key ≠ expectedKey then some none
            else if keyEnd ≤ dataEnd then
              some (some ((data.drop keyEnd.toNat).take (dataEnd - keyEnd).toNat))
            else none
          else none

/-- The `Get` probe loop with exact cast semantics; the slot offset
`table.offset + 16*slot` is `uint64` arithmetic and may wrap. -/
def getProbeW (data : List Nat) (tOff tLen h : Nat) (key : List Nat) :
    Nat → Nat → Option (Option (List Nat))
  | 0, _ => some none
  | fuel + 1, slot =>
    match readTupleMmapW data ((tOff + 16 * slot) % 2 ^ 64) with
    | none => none
    | some (slotHash, offset) =>
      if slotHash = 0 then some none
      else if slotHash = h then
        match getValueAtW data offset key with
        | none => none
        | some (some value) => some (some value)
        | some none => getProbeW data tOff tLen h key fuel ((slot + 1) % tLen)
      else getProbeW data tOff tLen h key fuel ((slot + 1) % tLen)

/-- `readTableAt` with exact semantics: its two reads are unchecked slice
accesses inside `[0, 4096)` and panic only when the file is shorter. -/
def readTableAtW (data : List Nat) (tableNum : Nat) : Option table :=
  if tableNum * 16 + 16 ≤ data.length then some (readTableAt data tableNum)
  else none

/-- `MmapCDB.Get` with exact cast semantics; `none` is a Go panic. -/
def mmapGetW (data : List Nat) (key : List Nat) : Option (Option (List Nat)) :=
  let hash := cdbHash key
  match readTableAtW data (hash % 256) with
  | none => none
  | some t =>
    if t.length = 0 then some none
    else getProbeW data t.offset t.length hash key t.length (hash / 256 % t.length)

/-! ## Abstract description of the writer's output

The following definitions re-express, in closed form, what the writer state
and the finalized file look like after a sequence of `Put` calls; the
`runPuts_*`, `finalizeTables_eq` and `mkFile_eq_fileT` lemmas below prove
that they agree with the operational definitions above. -/

/-- Size in bytes of one record: 16-byte header plus key plus value. -/
def recSize (p : List Nat × List Nat) : Nat := 16 + p.1.length + p.2.length

/-- Total size of the data region. -/
def dSize (ps : List (List Nat × List Nat)) : Nat := (ps.map recSize).sum

/-- Serialized record: `(key_len, value_len)` tuple, key bytes, value bytes. -/
def recordBytes (p : List Nat × List Nat) : List Nat :=
  le64 p.1.length ++ le64 p.2.length ++ p.1 ++ p.2

/-- The data region: records back to back in insertion order. -/
def dataRegion (ps : List (List Nat × List Nat)) : List Nat :=
  ps.flatMap recordBytes

/-- A record together with the absolute file offset of its header. -/
structure recInfo where
  key : List Nat
  val : List Nat
  off : Nat
deriving DecidableEq, Repr

/-- Annotate the records of a put sequence with their absolute offsets,
starting at `off`. -/
def annotFrom : Nat → List (List Nat × List Nat) → List recInfo
  | _, [] => []
  | off, p :: ps => ⟨p.1, p.2, off⟩ :: annotFrom (off + recSize p) ps

/-- The records of the database with their offsets (data region starts at
`indexSize`). -/
def annot (ps : List (List Nat × List Nat)) : List recInfo :=
  annotFrom indexSize ps

/-- The `(hash, offset)` entry that `Put` records for a record. -/
def recEntry (r : recInfo) : entry := ⟨cdbHash r.key, r.off⟩

/-- The records of bucket `b`, in insertion order. -/
def bucketRecs (ps : List (List Nat × List Nat)) (b : Nat) : List recInfo :=
  (annot ps).filter fun r => cdbHash r.key % 256 == b

/-- The entry list that the writer accumulates for bucket `b`. -/
def bucketEntries (ps : List (List Nat × List Nat)) (b : Nat) : List entry :=
  (bucketRecs ps b).map recEntry

/-- `n_b`: the number of records in bucket `b`. -/
def numRec (ps : List (List Nat × List Nat)) (b : Nat) : Nat :=
  (bucketRecs ps b).length

/-- `T`: the size of the hash-table region, `16 · Σ_b 2·n_b` bytes. -/
def tSize (ps : List (List Nat × List Nat)) : Nat :=
  16 * ((List.range 256).map fun b => 2 * numRec ps b).sum

/-- The size bound under which the `Nat` model coincides with the Go code:
the whole file fits below `2^63` (Go's own `ErrTooMuchData` limit). -/
def sizeOk (ps : List (List Nat × List Nat)) : Prop :=
  indexSize + dSize ps + tSize ps < 2 ^ 63

instance (ps : List (List Nat × List Nat)) : Decidable (sizeOk ps) :=
  inferInstanceAs (Decidable (indexSize + dSize ps + tSize ps < 2 ^ 63))

/-- Total version of `placeEntry`: the unreachable `hash table full` branch
leaves the table unchanged (`placeEntry_eq_total` below shows the branch is
never taken). -/
def placeEntryT (tbl : List entry) (e : entry) : List entry :=
  match probeFind tbl tbl.length tbl.length (e.hash / 256 % tbl.length) with
  | some slot => tbl.set slot e
  | none => tbl

/-- Total version of `buildHashTable`. -/
def buildHashTableT (tbl : List entry) (es : List entry) : List entry :=
  es.foldl placeEntryT tbl

/-- The slot array that finalization writes for bucket `b`: the bucket's
entries open-address-inserted into `2·n_b` empty slots. -/
def writtenTable (ps : List (List Nat × List Nat)) (b : Nat) : List entry :=
  buildHashTableT (List.replicate (2 * numRec ps b) default) (bucketEntries ps b)

/-- The `(tableOffset, tableSize)` head-index pairs, bucket by bucket. -/
def tosTFrom (ef : Nat → List entry) (off : Nat) : List Nat → List (Nat × Nat)
  | [] => []
  | b :: bs =>
    if (ef b).length = 0 then (0, 0) :: tosTFrom ef off bs
    else (off, 2 * (ef b).length) :: tosTFrom ef (off + 32 * (ef b).length) bs

/-- The hash-table region bytes, bucket by bucket. -/
def tablesBytesT (ef : Nat → List entry) (bs : List Nat) : List Nat :=
  bs.flatMap fun b =>
    tableBytes (buildHashTableT (List.replicate (2 * (ef b).length) default) (ef b))

/-- Closed form of the finalized file. -/
def fileT (ps : List (List Nat × List Nat)) : List Nat :=
  headIndexBytes (tosTFrom (bucketEntries ps) (indexSize + dSize ps) (List.range 256))
    ++ dataRegion ps ++ tablesBytesT (bucketEntries ps) (List.range 256)

/-- 1-based insertion-order position of key `k`'s first record within its
bucket (used to state claim C8's probe-count clause). -/
def posInBucket (ps : List (List Nat × List Nat)) (k : List Nat) : Nat :=
  (bucketRecs ps (cdbHash k % 256)).findIdx (fun r => r.key == k) + 1

/-- Number of occupied (nonzero-hash) slots. -/
def nzCount (tbl : List entry) : Nat := tbl.countP fun s => decide (s.hash ≠ 0)

/-- `16 · Σ_{b' < b} 2·n_{b'}`: bytes of hash tables written before bucket
`b`'s table. -/
def tableSizesPrefix (ps : List (List Nat × List Nat)) (b : Nat) : Nat :=
  ((List.range b).map fun b' => 32 * numRec ps b').sum

/-- Absolute file offset of bucket `b`'s hash table (when `b` is non-empty). -/
def tblOff (ps : List (List Nat × List Nat)) (b : Nat) : Nat :=
  indexSize + dSize ps + tableSizesPrefix ps b

/-- A five-byte key whose 32-bit `cdbHash` is `0`. -/
def keyZ : List Nat := [151, 194, 28, 229, 233]

/-- A 4096-byte mapped content whose head-index entry for bucket 5 (the
bucket of the empty key) claims a table of length 1 at offset `2^63`. -/
def badData : List Nat :=
  List.replicate 80 0 ++ le64 (2 ^ 63) ++ le64 1 ++ List.replicate 4000 0

/-- The entries of records whose key is byte-equal to `q` (all in `q`'s
bucket). -/
def targetEntries (ps : List (List Nat × List Nat)) (q : List Nat) : List entry :=
  ((bucketRecs ps (cdbHash q % 256)).filter fun r => r.key == q).map recEntry

/-- Slot predicate: the slot holds the entry of a record with key `q`. -/
def TbFun (ps : List (List Nat × List Nat)) (q : List Nat) : entry → Bool :=
  fun e => (targetEntries ps q).contains e

/-! ## Theorems -/

-- Basic sanity facts about the primitives.

theorem cdbHash_lt (data : List Nat) : cdbHash data < 2 ^ 32 := by
  suffices h : ∀ l v, v < 2 ^ 32 →
      List.foldl (fun v b => Nat.xor (((v <<< 5) + v) % 2 ^ 32) (b % 256)) v l < 2 ^ 32 by
    exact h data 5381 (by norm_num)
  intro l
  induction l with
  | nil => intro v hv; simpa using hv
  | cons b bs ih =>
    intro v hv
    refine ih _ ?_
    have h1 : ((v <<< 5) + v) % 2 ^ 32 < 2 ^ 32 := Nat.mod_lt _ (by norm_num)
    have h2 : b % 256 < 256 := Nat.mod_lt _ (by norm_num)
    calc Nat.xor (((v <<< 5) + v) % 2 ^ 32) (b % 256)
        < 2 ^ 32 := Nat.xor_lt_two_pow (n := 32) h1 (lt_of_lt_of_le h2 (by norm_num))

theorem le64_length (n : Nat) : (le64 n).length = 8 := by
  simp [le64]

theorem leVal_le64 (n : Nat) (h : n < 2 ^ 64) : leVal (le64 n) = n := by
  simp only [le64, leVal]
  omega

theorem le64_lt (n : Nat) : ∀ b ∈ le64 n, b < 256 := by
  intro b hb
  simp only [le64, List.mem_cons, List.not_mem_nil, or_false] at hb
  rcases hb with h | h | h | h | h | h | h | h <;> subst h <;> exact Nat.mod_lt _ (by norm_num)

/-- Reading 8 bytes where the data continues with a 64-bit encoding. -/
theorem readLE64_at (data : List Nat) (off n : Nat) (rest : List Nat)
    (hd : data.drop off = le64 n ++ rest) (hn : n < 2 ^ 64) :
    readLE64 data off = n := by
  rw [readLE64, hd, List.take_append_of_le_length (by simp [le64_length])]
  have : (le64 n).take 8 = le64 n := by
    rw [List.take_of_length_le (by simp [le64_length])]
  rw [this, leVal_le64 n hn]

/-! ## Characterization of the writer state after a sequence of puts -/

theorem runPuts_bufferedOffset (ps : List (List Nat × List Nat)) :
    ∀ w, (runPuts w ps).bufferedOffset = w.bufferedOffset + dSize ps := by
  induction ps with
  | nil => intro w; simp [runPuts, dSize]
  | cons p ps ih =>
    intro w
    obtain ⟨k, v⟩ := p
    rw [runPuts, ih]
    simp [writerPut, dSize, recSize]
    omega

theorem runPuts_dataBytes (ps : List (List Nat × List Nat)) :
    ∀ w, (runPuts w ps).dataBytes = w.dataBytes ++ dataRegion ps := by
  induction ps with
  | nil => intro w; simp [runPuts, dataRegion]
  | cons p ps ih =>
    intro w
    obtain ⟨k, v⟩ := p
    rw [runPuts, ih]
    simp [writerPut, dataRegion, recordBytes]

theorem runPuts_entries (ps : List (List Nat × List Nat)) :
    ∀ w b, (runPuts w ps).entries b = w.entries b ++
      ((annotFrom w.bufferedOffset ps).filter fun r => cdbHash r.key % 256 == b).map
        recEntry := by
  induction ps with
  | nil => intro w b; simp [runPuts, annotFrom]
  | cons p ps ih =>
    intro w b
    obtain ⟨k, v⟩ := p
    rw [runPuts, ih]
    have hoff : (writerPut w k v).bufferedOffset = w.bufferedOffset + recSize (k, v) := rfl
    rw [hoff, annotFrom]
    have hent : (writerPut w k v).entries b =
        if b = cdbHash k % 256 then
          w.entries b ++ [⟨cdbHash k, w.bufferedOffset⟩]
        else w.entries b := rfl
    rw [hent, List.filter_cons]
    by_cases hb : cdbHash k % 256 = b
    · rw [if_pos hb.symm, if_pos (by simpa using hb), List.map_cons]
      show w.entries b ++ [recEntry ⟨k, v, w.bufferedOffset⟩] ++ _ = _
      rw [List.append_assoc]
      rfl
    · rw [if_neg (fun h => hb h.symm), if_neg (by simpa using hb)]

theorem runPuts_entries_newWriter (ps : List (List Nat × List Nat)) (b : Nat) :
    (runPuts newWriter ps).entries b = bucketEntries ps b := by
  rw [runPuts_entries]
  simp [newWriter, bucketEntries, bucketRecs, annot]

/-! ## Open-addressed placement: probe characterization and totality -/

theorem probeFind_none_char (tbl : List entry) (size : Nat) :
    ∀ fuel slot, slot < size → probeFind tbl size fuel slot = none →
      ∀ i < fuel, (tbl.getD ((slot + i) % size) default).hash ≠ 0 := by
  intro fuel
  induction fuel with
  | zero => intro slot _ _ i hi; omega
  | succ fuel ih =>
    intro slot hs hp i hi
    rw [probeFind] at hp
    by_cases h0 : (tbl.getD slot default).hash = 0
    · rw [if_pos h0] at hp; exact absurd hp (by simp)
    · rw [if_neg h0] at hp
      match i with
      | 0 => rw [Nat.add_zero, Nat.mod_eq_of_lt hs]; exact h0
      | i + 1 =>
        have := ih ((slot + 1) % size) (Nat.mod_lt _ (by omega)) hp i (by omega)
        rwa [Nat.mod_add_mod, Nat.add_assoc, Nat.add_comm 1 i] at this

theorem probeFind_some_char (tbl : List entry) (size : Nat) :
    ∀ fuel slot j, slot < size → probeFind tbl size fuel slot = some j →
      ∃ d < fuel, j = (slot + d) % size ∧ (tbl.getD j default).hash = 0 ∧
        ∀ i < d, (tbl.getD ((slot + i) % size) default).hash ≠ 0 := by
  intro fuel
  induction fuel with
  | zero => intro slot j _ hp; rw [probeFind] at hp; exact absurd hp (by simp)
  | succ fuel ih =>
    intro slot j hs hp
    rw [probeFind] at hp
    by_cases h0 : (tbl.getD slot default).hash = 0
    · rw [if_pos h0] at hp
      refine ⟨0, by omega, ?_, ?_, fun i hi => by omega⟩
      · rw [Nat.add_zero, Nat.mod_eq_of_lt hs]; exact (Option.some_inj.mp hp).symm
      · rw [← Option.some_inj.mp hp]; exact h0
    · rw [if_neg h0] at hp
      obtain ⟨d, hd, hj, hz, hpath⟩ := ih ((slot + 1) % size) j (Nat.mod_lt _ (by omega)) hp
      refine ⟨d + 1, by omega, ?_, hz, ?_⟩
      · rwa [Nat.mod_add_mod, Nat.add_assoc, Nat.add_comm 1 d] at hj
      · intro i hi
        match i with
        | 0 => rw [Nat.add_zero, Nat.mod_eq_of_lt hs]; exact h0
        | i + 1 =>
          have := hpath i (by omega)
          rwa [Nat.mod_add_mod, Nat.add_assoc, Nat.add_comm 1 i] at this

theorem nzCount_set_le (tbl : List entry) :
    ∀ j e, nzCount (tbl.set j e) ≤ nzCount tbl + 1 := by
  induction tbl with
  | nil => intro j e; simp [nzCount]
  | cons a l ih =>
    intro j e
    match j with
    | 0 => simp only [List.set, nzCount, List.countP_cons]; have := ih 0 e; split <;> split <;> omega
    | j + 1 =>
      simp only [List.set, nzCount, List.countP_cons]
      have := ih j e
      simp only [nzCount] at this
      omega

theorem exists_empty_slot (tbl : List entry) (h : nzCount tbl < tbl.length) :
    ∃ j < tbl.length, (tbl.getD j default).hash = 0 := by
  by_contra hc
  push_neg at hc
  have : ∀ x ∈ tbl, x.hash ≠ 0 := by
    intro x hx
    obtain ⟨i, hi, rfl⟩ := List.mem_iff_getElem.mp hx
    have := hc i hi
    rwa [List.getD_eq_getElem _ _ hi] at this
  have : nzCount tbl = tbl.length :=
    List.countP_eq_length.mpr fun a ha => by simpa using this a ha
  omega

theorem probeFind_isSome (tbl : List entry) (slot : Nat) (hs : slot < tbl.length)
    (h : nzCount tbl < tbl.length) :
    ∃ j, probeFind tbl tbl.length tbl.length slot = some j := by
  cases hp : probeFind tbl tbl.length tbl.length slot with
  | some j => exact ⟨j, rfl⟩
  | none =>
    exfalso
    obtain ⟨j, hj, hz⟩ := exists_empty_slot tbl h
    have hall := probeFind_none_char tbl tbl.length tbl.length slot hs hp
    have hsz : 0 < tbl.length := by omega
    have hi : (j + tbl.length - slot) % tbl.length < tbl.length := Nat.mod_lt _ hsz
    have := hall ((j + tbl.length - slot) % tbl.length) hi
    apply this
    have h1 : (slot + (j + tbl.length - slot) % tbl.length) % tbl.length
        = (slot + (j + tbl.length - slot)) % tbl.length := Nat.add_mod_mod ..
    have h2 : slot + (j + tbl.length - slot) = j + tbl.length := by omega
    rw [h1, h2, Nat.add_mod_right, Nat.mod_eq_of_lt hj]
    exact hz

theorem placeEntryT_length (tbl : List entry) (e : entry) :
    (placeEntryT tbl e).length = tbl.length := by
  rw [placeEntryT]
  cases probeFind tbl tbl.length tbl.length (e.hash / 256 % tbl.length) with
  | some j => simp
  | none => rfl

theorem placeEntryT_nzCount (tbl : List entry) (e : entry) :
    nzCount (placeEntryT tbl e) ≤ nzCount tbl + 1 := by
  rw [placeEntryT]
  cases probeFind tbl tbl.length tbl.length (e.hash / 256 % tbl.length) with
  | some j => exact nzCount_set_le tbl j e
  | none => exact Nat.le_succ _

theorem placeEntry_eq (tbl : List entry) (e : entry) (h : nzCount tbl < tbl.length) :
    placeEntry tbl e = some (placeEntryT tbl e) := by
  have hsz : 0 < tbl.length := by omega
  obtain ⟨j, hj⟩ := probeFind_isSome tbl (e.hash / 256 % tbl.length) (Nat.mod_lt _ hsz) h
  rw [placeEntry, placeEntryT, hj]

theorem buildHashTable_eq : ∀ es tbl, nzCount tbl + es.length ≤ tbl.length →
    buildHashTable tbl es = some (buildHashTableT tbl es) := by
  intro es
  induction es with
  | nil => intro tbl _; rfl
  | cons e es ih =>
    intro tbl h
    have h1 : nzCount tbl < tbl.length := by simp only [List.length_cons] at h; omega
    rw [buildHashTable, placeEntry_eq tbl e h1]
    have h2 : nzCount (placeEntryT tbl e) + es.length ≤ (placeEntryT tbl e).length := by
      rw [placeEntryT_length]
      have := placeEntryT_nzCount tbl e
      simp only [List.length_cons] at h
      omega
    show buildHashTable (placeEntryT tbl e) es = some (buildHashTableT tbl (e :: es))
    rw [ih (placeEntryT tbl e) h2]
    rfl

theorem buildHashTableT_length (es : List entry) :
    ∀ tbl, (buildHashTableT tbl es).length = tbl.length := by
  induction es with
  | nil => intro tbl; rfl
  | cons e es ih =>
    intro tbl
    rw [buildHashTableT, List.foldl_cons, ← buildHashTableT, ih, placeEntryT_length]

theorem nzCount_replicate (n : Nat) : nzCount (List.replicate n default) = 0 := by
  induction n with
  | zero => rfl
  | succ n ih => simp only [List.replicate, nzCount, List.countP_cons] at *; simp [ih, default]

theorem buildHashTableT_mem (es : List entry) :
    ∀ tbl x, x ∈ buildHashTableT tbl es → x ∈ tbl ∨ x ∈ es := by
  induction es with
  | nil => intro tbl x hx; exact Or.inl hx
  | cons e es ih =>
    intro tbl x hx
    rw [buildHashTableT, List.foldl_cons, ← buildHashTableT] at hx
    rcases ih (placeEntryT tbl e) x hx with hm | hm
    · rw [placeEntryT] at hm
      rcases hpf : probeFind tbl tbl.length tbl.length (e.hash / 256 % tbl.length) with _ | j
      · rw [hpf] at hm; exact Or.inl hm
      · rw [hpf] at hm
        rcases List.mem_or_eq_of_mem_set hm with h | h
        · exact Or.inl h
        · exact Or.inr (by simp [h])
    · exact Or.inr (List.mem_cons_of_mem e hm)

/-! ## The finalized file in closed form -/

theorem finalizeTables_eq (ef : Nat → List entry) :
    ∀ bs off, finalizeTables ef off bs = some (tosTFrom ef off bs, tablesBytesT ef bs) := by
  intro bs
  induction bs with
  | nil => intro off; rfl
  | cons b bs ih =>
    intro off
    by_cases hb : (ef b).length = 0
    · have hnil : ef b = [] := List.length_eq_zero.mp hb
      simp only [finalizeTables, tosTFrom, tablesBytesT, List.flatMap_cons, hnil,
        List.length_nil, Nat.mul_zero, List.replicate, if_pos rfl]
      rw [ih off]
      rfl
    · have hsz : ¬ (2 * (ef b).length = 0) := by omega
      simp only [finalizeTables, tosTFrom, tablesBytesT, List.flatMap_cons, if_neg hsz,
        if_neg hb]
      have hbt : buildHashTable (List.replicate (2 * (ef b).length) default) (ef b) =
          some (buildHashTableT (List.replicate (2 * (ef b).length) default) (ef b)) := by
        apply buildHashTable_eq
        rw [nzCount_replicate, List.length_replicate]
        omega
      rw [hbt]
      have h16 : 16 * (2 * (ef b).length) = 32 * (ef b).length := by ring
      rw [h16, ih (off + 32 * (ef b).length)]
      rfl

theorem mkFile_eq_fileT (ps : List (List Nat × List Nat)) :
    mkFile ps = some (fileT ps) := by
  have hent : (runPuts newWriter ps).entries = bucketEntries ps :=
    funext fun b => runPuts_entries_newWriter ps b
  have hoff : (runPuts newWriter ps).bufferedOffset = indexSize + dSize ps :=
    runPuts_bufferedOffset ps newWriter
  have hdata : (runPuts newWriter ps).dataBytes = dataRegion ps := by
    rw [runPuts_dataBytes]; rfl
  simp only [mkFile, hent, hoff, hdata, finalizeTables_eq]
  rfl

/-! ## Lengths of the file components -/

theorem recordBytes_length (p : List Nat × List Nat) :
    (recordBytes p).length = recSize p := by
  simp [recordBytes, recSize, le64_length]
  omega

theorem dataRegion_length (ps : List (List Nat × List Nat)) :
    (dataRegion ps).length = dSize ps := by
  induction ps with
  | nil => rfl
  | cons p ps ih =>
    simp only [dataRegion, List.flatMap_cons, List.length_append, dSize, List.map_cons,
      List.sum_cons] at *
    rw [recordBytes_length, ih]

theorem headIndexBytes_length (tos : List (Nat × Nat)) :
    (headIndexBytes tos).length = 16 * tos.length := by
  induction tos with
  | nil => rfl
  | cons p tos ih =>
    simp only [headIndexBytes, List.flatMap_cons, List.length_append, List.length_cons] at *
    rw [ih]
    simp [le64_length]
    omega

theorem tosTFrom_length (ef : Nat → List entry) :
    ∀ bs off, (tosTFrom ef off bs).length = bs.length := by
  intro bs
  induction bs with
  | nil => intro off; rfl
  | cons b bs ih =>
    intro off
    rw [tosTFrom]
    by_cases hb : (ef b).length = 0
    · rw [if_pos hb, List.length_cons, ih]; rfl
    · rw [if_neg hb, List.length_cons, ih]; rfl

theorem tableBytes_length (tbl : List entry) : (tableBytes tbl).length = 16 * tbl.length := by
  induction tbl with
  | nil => rfl
  | cons e tbl ih =>
    simp only [tableBytes, List.flatMap_cons, List.length_append, List.length_cons] at *
    rw [ih]
    simp [le64_length]
    omega

theorem bucketEntries_length (ps : List (List Nat × List Nat)) (b : Nat) :
    (bucketEntries ps b).length = numRec ps b := by
  simp [bucketEntries, numRec]

theorem tablesBytesT_length (ef : Nat → List entry) (bs : List Nat) :
    (tablesBytesT ef bs).length = (bs.map fun b => 32 * (ef b).length).sum := by
  induction bs with
  | nil => rfl
  | cons b bs ih =>
    simp only [tablesBytesT, List.flatMap_cons, List.length_append, List.map_cons,
      List.sum_cons] at *
    rw [ih, tableBytes_length, buildHashTableT_length, List.length_replicate]
    omega

theorem tablesBytesT_range_length (ps : List (List Nat × List Nat)) :
    (tablesBytesT (bucketEntries ps) (List.range 256)).length = tSize ps := by
  rw [tablesBytesT_length, tSize]
  induction (List.range 256) with
  | nil => rfl
  | cons b bs ih =>
    simp only [List.map_cons, List.sum_cons, Nat.mul_add] at *
    rw [ih, bucketEntries_length]
    ring

theorem fileT_length (ps : List (List Nat × List Nat)) :
    (fileT ps).length = indexSize + dSize ps + tSize ps := by
  rw [fileT]
  simp only [List.length_append]
  rw [headIndexBytes_length, tosTFrom_length, dataRegion_length, tablesBytesT_range_length]
  simp [indexSize]

/-! ## Reading back what was written: drop/chunk lemmas -/

theorem drop_append_ge {α : Type} (l₁ l₂ : List α) (k : Nat) (h : l₁.length ≤ k) :
    (l₁ ++ l₂).drop k = l₂.drop (k - l₁.length) := by
  induction l₁ generalizing k with
  | nil => simp
  | cons a l ih =>
    match k with
    | 0 => simp at h
    | k + 1 =>
      simp only [List.cons_append, List.drop_succ_cons, List.length_cons]
      rw [ih k (by simpa using h)]
      congr 1
      omega

theorem readTupleMmap_of_drop (data : List Nat) (off a b : Nat) (rest : List Nat)
    (hd : data.drop off = le64 a ++ le64 b ++ rest)
    (ha : a < 2 ^ 64) (hb : b < 2 ^ 64) :
    readTupleMmap data off = (a, b) := by
  have hlen : (data.drop off).length = data.length - off := List.length_drop off data
  have hlen2 : (data.drop off).length = 16 + rest.length := by
    rw [hd]; simp [le64_length]; omega
  have hoff : off ≤ data.length := by
    by_contra hc
    push_neg at hc
    rw [List.drop_eq_nil_of_le (by omega)] at hd
    have := congrArg List.length hd
    simp [le64_length] at this
    omega
  have hbound : ¬ (off + 16 > data.length) := by omega
  rw [readTupleMmap, if_neg hbound]
  have h1 : readLE64 data off = a := by
    apply readLE64_at data off a (le64 b ++ rest) _ ha
    rw [hd, List.append_assoc]
  have h2 : readLE64 data (off + 8) = b := by
    apply readLE64_at data (off + 8) b rest _ hb
    rw [← List.drop_drop, hd, List.append_assoc, drop_append_ge _ _ 8 (by simp [le64_length])]
    simp [le64_length]
  rw [h1, h2]

theorem flatMap_drop_sum {α : Type} (f : α → List Nat) (l : List α) :
    ∀ i, (hi : i < l.length) →
      (l.flatMap f).drop (((l.take i).map fun x => (f x).length).sum) =
        f (l[i]) ++ (l.drop (i + 1)).flatMap f := by
  induction l with
  | nil => intro i hi; simp at hi
  | cons a l ih =>
    intro i hi
    match i with
    | 0 => simp
    | i + 1 =>
      simp only [List.take_succ_cons, List.map_cons, List.sum_cons, List.flatMap_cons,
        List.getElem_cons_succ, List.drop_succ_cons]
      rw [drop_append_ge _ _ _ (by omega)]
      have : (f a).length + ((l.take i).map fun x => (f x).length).sum - (f a).length
          = ((l.take i).map fun x => (f x).length).sum := by omega
      rw [this]
      exact ih i (by simpa using hi)

theorem flatMap_drop_const {α : Type} (f : α → List Nat) (c : Nat)
    (hf : ∀ x, (f x).length = c) (l : List α) (i : Nat) (hi : i < l.length) :
    (l.flatMap f).drop (c * i) =
      f (l[i]) ++ (l.drop (i + 1)).flatMap f := by
  have h := flatMap_drop_sum f l i hi
  have hsum : ((l.take i).map fun x => (f x).length).sum = c * i := by
    have h1 : (l.take i).map (fun x => (f x).length) = (l.take i).map fun _ => c :=
      List.map_congr_left fun x _ => hf x
    rw [h1, List.map_const', List.sum_replicate, List.length_take, smul_eq_mul]
    have : min i l.length = i := by omega
    rw [this, Nat.mul_comm]
  rwa [hsum] at h

/-! ## Decoding the head index of the finalized file -/

theorem tosTFrom_get (ef : Nat → List entry) :
    ∀ bs off i, (hi : i < bs.length) →
      (tosTFrom ef off bs).get ⟨i, by rw [tosTFrom_length]; exact hi⟩ =
        if (ef bs[i]).length = 0 then (0, 0)
        else (off + ((bs.take i).map fun b => 32 * (ef b).length).sum,
          2 * (ef bs[i]).length) := by
  intro bs
  simp only [List.get_eq_getElem]
  induction bs with
  | nil => intro off i hi; simp at hi
  | cons b bs ih =>
    intro off i hi
    match i with
    | 0 =>
      simp only [tosTFrom]
      by_cases hb : (ef b).length = 0
      · simp [hb]
      · simp [hb]
    | i + 1 =>
      have hi' : i < bs.length := by simp only [List.length_cons] at hi; omega
      by_cases hb : (ef b).length = 0
      · have hre : tosTFrom ef off (b :: bs) = (0, 0) :: tosTFrom ef off bs := by
          simp only [tosTFrom, if_pos hb]
        simp only [hre, List.getElem_cons_succ, List.take_succ_cons, List.map_cons,
          List.sum_cons, hb, Nat.mul_zero, Nat.zero_add]
        exact ih off i hi'
      · have hre : tosTFrom ef off (b :: bs)
            = (off, 2 * (ef b).length) :: tosTFrom ef (off + 32 * (ef b).length) bs := by
          simp only [tosTFrom, if_neg hb]
        simp only [hre, List.getElem_cons_succ, List.take_succ_cons, List.map_cons,
          List.sum_cons]
        rw [ih (off + 32 * (ef b).length) i hi']
        by_cases hbi : (ef bs[i]).length = 0
        · rw [if_pos hbi, if_pos hbi]
        · rw [if_neg hbi, if_neg hbi]
          congr 1
          omega

theorem sum_range_map_mono (f : Nat → Nat) (m n : Nat) (h : m ≤ n) :
    ((List.range m).map f).sum ≤ ((List.range n).map f).sum := by
  have h1 : (List.range n).take m = List.range m := by
    rw [List.take_range]; congr 1; omega
  calc ((List.range m).map f).sum = (((List.range n).take m).map f).sum := by rw [h1]
    _ = (((List.range n).map f).take m).sum := by rw [List.map_take]
    _ ≤ (((List.range n).map f).take m).sum + (((List.range n).map f).drop m).sum := by omega
    _ = ((List.range n).map f).sum := List.sum_take_add_sum_drop _ m

theorem tSize_eq_sum32 (ps : List (List Nat × List Nat)) :
    tSize ps = ((List.range 256).map fun b => 32 * numRec ps b).sum := by
  rw [tSize]
  induction (List.range 256) with
  | nil => rfl
  | cons b bs ih =>
    simp only [List.map_cons, List.sum_cons, Nat.mul_add] at *
    omega

theorem tableSizesPrefix_bound (ps : List (List Nat × List Nat)) (b : Nat) (hb : b < 256) :
    tableSizesPrefix ps b + 32 * numRec ps b ≤ tSize ps := by
  rw [tSize_eq_sum32, tableSizesPrefix]
  have h1 : ((List.range (b + 1)).map fun b' => 32 * numRec ps b').sum
      ≤ ((List.range 256).map fun b' => 32 * numRec ps b').sum :=
    sum_range_map_mono _ (b + 1) 256 (by omega)
  rw [List.range_succ, List.map_append, List.sum_append] at h1
  simpa using h1

theorem readTableAt_of_drop (data : List Nat) (tn a b : Nat) (rest : List Nat)
    (hd : data.drop (tn * 16) = le64 a ++ le64 b ++ rest)
    (ha : a < 2 ^ 64) (hb : b < 2 ^ 64) :
    readTableAt data tn = ⟨a, b⟩ := by
  rw [readTableAt]
  have h1 : readLE64 data (tn * 16) = a := by
    apply readLE64_at data (tn * 16) a (le64 b ++ rest) _ ha
    rw [hd, List.append_assoc]
  have h2 : readLE64 data (tn * 16 + 8) = b := by
    apply readLE64_at data (tn * 16 + 8) b rest _ hb
    rw [← List.drop_drop, hd, List.append_assoc, drop_append_ge _ _ 8 (by simp [le64_length])]
    simp [le64_length]
  rw [h1, h2]

theorem readTableAt_fileT (ps : List (List Nat × List Nat)) (b : Nat) (hb : b < 256)
    (hsz : sizeOk ps) :
    readTableAt (fileT ps) b =
      if numRec ps b = 0 then ⟨0, 0⟩ else ⟨tblOff ps b, 2 * numRec ps b⟩ := by
  have hblen : b < (List.range 256).length := by simpa using hb
  have hchunk : ∀ p : Nat × Nat, (le64 p.1 ++ le64 p.2).length = 16 := by
    intro p; simp [le64_length]
  have hble : b < (tosTFrom (bucketEntries ps) (indexSize + dSize ps) (List.range 256)).length := by
    rw [tosTFrom_length]; simpa using hb
  set pr := (tosTFrom (bucketEntries ps) (indexSize + dSize ps) (List.range 256))[b] with hpr
  have hd : (fileT ps).drop (b * 16) =
      le64 pr.1 ++ (le64 pr.2 ++
        (((tosTFrom (bucketEntries ps) (indexSize + dSize ps) (List.range 256)).drop (b + 1)).flatMap
            (fun p => le64 p.1 ++ le64 p.2)
          ++ (dataRegion ps ++ tablesBytesT (bucketEntries ps) (List.range 256)))) := by
    have hsplit : (fileT ps).drop (b * 16) =
        (headIndexBytes (tosTFrom (bucketEntries ps) (indexSize + dSize ps) (List.range 256))).drop (b * 16)
        ++ (dataRegion ps ++ tablesBytesT (bucketEntries ps) (List.range 256)) := by
      rw [fileT, List.append_assoc, List.drop_append_of_le_length]
      rw [headIndexBytes_length, tosTFrom_length]
      simp
      omega
    have h16 : b * 16 = 16 * b := by ring
    rw [hsplit, h16, headIndexBytes, flatMap_drop_const _ 16 hchunk _ b hble]
    simp [List.append_assoc]
  have hget := tosTFrom_get (bucketEntries ps) (List.range 256) (indexSize + dSize ps) b hblen
  simp only [List.get_eq_getElem] at hget
  have htk : ((List.range 256).take b) = List.range b := by
    rw [List.take_range]; congr 1; omega
  rw [htk, List.getElem_range] at hget
  have hpfx : ((List.range b).map fun b' => 32 * (bucketEntries ps b').length).sum
      = tableSizesPrefix ps b := by
    rw [tableSizesPrefix]
    congr 1
    exact List.map_congr_left fun x _ => by rw [bucketEntries_length]
  rw [hpfx, bucketEntries_length] at hget
  rw [← hpr] at hget
  have hbound := tableSizesPrefix_bound ps b hb
  have hs' : indexSize + dSize ps + tSize ps < 2 ^ 63 := hsz
  have hread : readTableAt (fileT ps) b = ⟨pr.1, pr.2⟩ := by
    apply readTableAt_of_drop (fileT ps) b pr.1 pr.2 _ hd
    · by_cases hnb : numRec ps b = 0
      · rw [hget, if_pos hnb]; norm_num
      · rw [hget, if_neg hnb]
        simp only [tblOff]
        omega
    · by_cases hnb : numRec ps b = 0
      · rw [hget, if_pos hnb]; norm_num
      · rw [hget, if_neg hnb]
        omega
  rw [hread]
  by_cases hnb : numRec ps b = 0
  · rw [hget, if_pos hnb, if_pos hnb]
  · rw [hget, if_neg hnb, if_neg hnb]
    rfl

/-! ## Reading records of the data region -/

theorem annotFrom_off_lb (ps : List (List Nat × List Nat)) :
    ∀ off0 r, r ∈ annotFrom off0 ps → off0 ≤ r.off := by
  induction ps with
  | nil => intro off0 r hr; simp [annotFrom] at hr
  | cons p ps ih =>
    intro off0 r hr
    rw [annotFrom] at hr
    rcases List.mem_cons.mp hr with h | h
    · subst h; exact Nat.le_refl _
    · have := ih (off0 + recSize p) r h
      omega

theorem annotFrom_bound (ps : List (List Nat × List Nat)) :
    ∀ off0 r, r ∈ annotFrom off0 ps →
      r.off + 16 + r.key.length + r.val.length ≤ off0 + dSize ps := by
  induction ps with
  | nil => intro off0 r hr; simp [annotFrom] at hr
  | cons p ps ih =>
    intro off0 r hr
    rw [annotFrom] at hr
    rcases List.mem_cons.mp hr with h | h
    · subst h
      simp only [dSize, List.map_cons, List.sum_cons, recSize]
      omega
    · have := ih (off0 + recSize p) r h
      simp only [dSize, List.map_cons, List.sum_cons] at *
      omega

theorem annotFrom_inj (ps : List (List Nat × List Nat)) :
    ∀ off0 r r', r ∈ annotFrom off0 ps → r' ∈ annotFrom off0 ps → r.off = r'.off →
      r = r' := by
  induction ps with
  | nil => intro off0 r r' hr; simp [annotFrom] at hr
  | cons p ps ih =>
    intro off0 r r' hr hr' heq
    rw [annotFrom] at hr hr'
    rcases List.mem_cons.mp hr with h | h <;> rcases List.mem_cons.mp hr' with h' | h'
    · rw [h, h']
    · exfalso
      have := annotFrom_off_lb ps (off0 + recSize p) r' h'
      rw [h] at heq
      simp only at heq
      rw [recSize] at this
      omega
    · exfalso
      have := annotFrom_off_lb ps (off0 + recSize p) r h
      rw [h'] at heq
      simp only at heq
      rw [recSize] at this
      omega
    · exact ih (off0 + recSize p) r r' h h' heq

theorem annotFrom_mem_pair (ps : List (List Nat × List Nat)) :
    ∀ off0 r, r ∈ annotFrom off0 ps → (r.key, r.val) ∈ ps := by
  induction ps with
  | nil => intro off0 r hr; simp [annotFrom] at hr
  | cons p ps ih =>
    intro off0 r hr
    rw [annotFrom] at hr
    rcases List.mem_cons.mp hr with h | h
    · subst h; simp
    · exact List.mem_cons_of_mem p (ih (off0 + recSize p) r h)

theorem dataRegion_drop_of_mem (ps : List (List Nat × List Nat)) :
    ∀ off0 r, r ∈ annotFrom off0 ps →
      ∃ rest, (dataRegion ps).drop (r.off - off0) = recordBytes (r.key, r.val) ++ rest := by
  induction ps with
  | nil => intro off0 r hr; simp [annotFrom] at hr
  | cons p ps ih =>
    intro off0 r hr
    rw [annotFrom] at hr
    rcases List.mem_cons.mp hr with h | h
    · subst h
      simp only [Nat.sub_self, List.drop_zero, dataRegion, List.flatMap_cons]
      exact ⟨dataRegion ps, rfl⟩
    · obtain ⟨rest, hrest⟩ := ih (off0 + recSize p) r h
      have hlb := annotFrom_off_lb ps (off0 + recSize p) r h
      refine ⟨rest, ?_⟩
      rw [dataRegion, List.flatMap_cons, drop_append_ge _ _ _ (by rw [recordBytes_length]; omega)]
      rw [recordBytes_length]
      have : r.off - off0 - recSize p = r.off - (off0 + recSize p) := by omega
      rw [this]
      exact hrest

theorem fileT_drop_record (ps : List (List Nat × List Nat)) (r : recInfo)
    (hr : r ∈ annot ps) :
    ∃ rest, (fileT ps).drop r.off = recordBytes (r.key, r.val) ++ rest := by
  have hlb := annotFrom_off_lb ps indexSize r hr
  have hub := annotFrom_bound ps indexSize r hr
  obtain ⟨rest, hrest⟩ := dataRegion_drop_of_mem ps indexSize r hr
  have hhead : (headIndexBytes (tosTFrom (bucketEntries ps) (indexSize + dSize ps)
      (List.range 256))).length = indexSize := by
    rw [headIndexBytes_length, tosTFrom_length]
    simp [indexSize]
  refine ⟨rest ++ tablesBytesT (bucketEntries ps) (List.range 256), ?_⟩
  rw [fileT, List.append_assoc, drop_append_ge _ _ _ (by rw [hhead]; omega), hhead]
  rw [List.drop_append_of_le_length (by rw [dataRegion_length]; omega)]
  rw [hrest, List.append_assoc]

theorem getValueAt_record (data : List Nat) (off : Nat) (k v rest : List Nat)
    (hd : data.drop off = recordBytes (k, v) ++ rest)
    (hk : k.length < 2 ^ 64) (hv : v.length < 2 ^ 64) (q : List Nat) :
    getValueAt data off q = if q = k then some v else none := by
  have hlen : (data.drop off).length = data.length - off := List.length_drop off data
  have hlen2 : (data.drop off).length = 16 + k.length + v.length + rest.length := by
    rw [hd]; simp [recordBytes, le64_length]; omega
  have hoff : off ≤ data.length := by
    by_contra hc
    push_neg at hc
    rw [List.drop_eq_nil_of_le (by omega)] at hd
    have := congrArg List.length hd
    simp [recordBytes, le64_length] at this
    omega
  have hd' : data.drop off = le64 k.length ++ le64 v.length ++ (k ++ (v ++ rest)) := by
    rw [hd]; simp [recordBytes, List.append_assoc]
  have hread : readTupleMmap data off = (k.length, v.length) :=
    readTupleMmap_of_drop data off k.length v.length _ hd' hk hv
  have hd16 : data.drop (off + 16) = k ++ (v ++ rest) := by
    rw [← List.drop_drop, hd']
    rw [drop_append_ge _ _ 16 (by simp [le64_length])]
    simp [le64_length]
  rw [getValueAt, if_neg (by omega : ¬ (off + 16 > data.length))]
  simp only [hread]
  by_cases hql : k.length = q.length
  · rw [if_neg (by omega : ¬ (k.length ≠ q.length))]
    rw [if_neg (by omega : ¬ (off + 16 + k.length + v.length > data.length))]
    have hkey : (data.drop (off + 16)).take k.length = k := by
      rw [hd16, List.take_left]
    have hval : (data.drop (off + 16 + k.length)).take v.length = v := by
      rw [← List.drop_drop, hd16, drop_append_ge _ _ _ (Nat.le_refl _), Nat.sub_self,
        List.drop_zero, List.take_left]
    rw [hkey, hval]
    by_cases hqk : k = q
    · rw [if_neg (by simp [hqk]), if_pos hqk.symm]
    · rw [if_pos hqk, if_neg (fun h => hqk h.symm)]
  · rw [if_pos (by omega : k.length ≠ q.length)]
    rw [if_neg (fun h : q = k => hql (by rw [h]))]

/-! ## Reading hash-table slots of the finalized file -/

theorem writtenTable_length (ps : List (List Nat × List Nat)) (b : Nat) :
    (writtenTable ps b).length = 2 * numRec ps b := by
  rw [writtenTable, buildHashTableT_length, List.length_replicate]

theorem writtenTable_mem (ps : List (List Nat × List Nat)) (b : Nat) (x : entry)
    (hx : x ∈ writtenTable ps b) : x = default ∨ x ∈ bucketEntries ps b := by
  rcases buildHashTableT_mem (bucketEntries ps b) _ x hx with h | h
  · exact Or.inl (List.eq_of_mem_replicate h)
  · exact Or.inr h

theorem bucketEntries_spec (ps : List (List Nat × List Nat)) (b : Nat) (e : entry)
    (he : e ∈ bucketEntries ps b) :
    ∃ r ∈ annot ps, e = recEntry r ∧ cdbHash r.key % 256 = b := by
  rw [bucketEntries] at he
  obtain ⟨r, hr, rfl⟩ := List.mem_map.mp he
  rw [bucketRecs] at hr
  obtain ⟨hmem, hcond⟩ := List.mem_filter.mp hr
  exact ⟨r, hmem, rfl, by simpa using hcond⟩

theorem entry_bounds (ps : List (List Nat × List Nat)) (b : Nat) (e : entry)
    (he : e ∈ bucketEntries ps b) (hsz : sizeOk ps) :
    e.hash < 2 ^ 32 ∧ e.offset < 2 ^ 63 := by
  obtain ⟨r, hr, rfl, _⟩ := bucketEntries_spec ps b e he
  constructor
  · exact cdbHash_lt r.key
  · have := annotFrom_bound ps indexSize r hr
    have hs : indexSize + dSize ps + tSize ps < 2 ^ 63 := hsz
    simp only [recEntry]
    omega

theorem fileT_drop_table (ps : List (List Nat × List Nat)) (b : Nat) (hb : b < 256)
    (hn : numRec ps b ≠ 0) :
    ∃ rest, (fileT ps).drop (tblOff ps b) = tableBytes (writtenTable ps b) ++ rest := by
  have hhead : (headIndexBytes (tosTFrom (bucketEntries ps) (indexSize + dSize ps)
      (List.range 256))).length = indexSize := by
    rw [headIndexBytes_length, tosTFrom_length]
    simp [indexSize]
  have hblen : b < (List.range 256).length := by simpa using hb
  have hsum : (((List.range 256).take b).map fun x =>
      (tableBytes (buildHashTableT
        (List.replicate (2 * (bucketEntries ps x).length) default)
        (bucketEntries ps x))).length).sum = tableSizesPrefix ps b := by
    have htk : (List.range 256).take b = List.range b := by
      rw [List.take_range]; congr 1; omega
    rw [htk, tableSizesPrefix]
    congr 1
    refine List.map_congr_left fun x _ => ?_
    rw [tableBytes_length, buildHashTableT_length, List.length_replicate, bucketEntries_length]
    ring
  have hdrop := flatMap_drop_sum
    (fun x => tableBytes (buildHashTableT
      (List.replicate (2 * (bucketEntries ps x).length) default) (bucketEntries ps x)))
    (List.range 256) b hblen
  rw [hsum, List.getElem_range] at hdrop
  refine ⟨((List.range 256).drop (b + 1)).flatMap
    (fun x => tableBytes (buildHashTableT
      (List.replicate (2 * (bucketEntries ps x).length) default) (bucketEntries ps x))), ?_⟩
  rw [fileT, List.append_assoc, drop_append_ge _ _ _ (by rw [hhead, tblOff]; omega), hhead]
  have h1 : tblOff ps b - indexSize = dSize ps + tableSizesPrefix ps b := by
    rw [tblOff]; omega
  rw [h1, drop_append_ge _ _ _ (by rw [dataRegion_length]; omega), dataRegion_length]
  have h2 : dSize ps + tableSizesPrefix ps b - dSize ps = tableSizesPrefix ps b := by omega
  rw [h2, tablesBytesT, hdrop]
  have hwt : writtenTable ps b = buildHashTableT
      (List.replicate (2 * (bucketEntries ps b).length) default) (bucketEntries ps b) := by
    rw [writtenTable, bucketEntries_length]
  rw [hwt]

theorem readTuple_slot (ps : List (List Nat × List Nat)) (b : Nat) (hb : b < 256)
    (hn : numRec ps b ≠ 0) (hsz : sizeOk ps) (j : Nat) (hj : j < 2 * numRec ps b) :
    readTupleMmap (fileT ps) (tblOff ps b + 16 * j) =
      (((writtenTable ps b).getD j default).hash,
       ((writtenTable ps b).getD j default).offset) := by
  obtain ⟨rest, hrest⟩ := fileT_drop_table ps b hb hn
  have hjlen : j < (writtenTable ps b).length := by rw [writtenTable_length]; exact hj
  have hchunk := flatMap_drop_const (fun e : entry => le64 e.hash ++ le64 e.offset) 16
    (fun e => by simp [le64_length]) (writtenTable ps b) j hjlen
  set e := (writtenTable ps b)[j] with he
  have hgd : (writtenTable ps b).getD j default = e := List.getD_eq_getElem _ _ hjlen
  have hbound : e = default ∨ e ∈ bucketEntries ps b :=
    writtenTable_mem ps b e (by rw [he]; exact List.getElem_mem hjlen)
  have hhash : e.hash < 2 ^ 64 ∧ e.offset < 2 ^ 64 := by
    rcases hbound with h | h
    · rw [h]; norm_num [default]
    · have := entry_bounds ps b e h hsz
      constructor
      · calc e.hash < 2 ^ 32 := this.1
          _ < 2 ^ 64 := by norm_num
      · calc e.offset < 2 ^ 63 := this.2
          _ < 2 ^ 64 := by norm_num
  have hd : (fileT ps).drop (tblOff ps b + 16 * j) =
      le64 e.hash ++ le64 e.offset ++
        (((writtenTable ps b).drop (j + 1)).flatMap (fun e => le64 e.hash ++ le64 e.offset)
          ++ rest) := by
    rw [← List.drop_drop, hrest,
      List.drop_append_of_le_length (by rw [tableBytes_length]; omega)]
    rw [tableBytes] at *
    rw [hchunk]
    simp [List.append_assoc]
  rw [hgd]
  exact readTupleMmap_of_drop _ _ _ _ _ hd hhash.1 hhash.2

/-! ## The first-fit path invariant of open-addressed insertion -/

theorem getD_set_self' (l : List entry) (j : Nat) (e : entry) (h : j < l.length) :
    (l.set j e).getD j default = e := by
  rw [List.getD_eq_getElem _ _ (by rw [List.length_set]; exact h)]
  exact List.getElem_set_self _

theorem getD_set_ne' (l : List entry) (i j : Nat) (e : entry) (h : i ≠ j) :
    (l.set i e).getD j default = l.getD j default := by
  by_cases hj : j < l.length
  · rw [List.getD_eq_getElem _ _ (by rw [List.length_set]; exact hj),
      List.getD_eq_getElem _ _ hj]
    exact List.getElem_set_ne h _
  · rw [List.getD_eq_default _ _ (by rw [List.length_set]; omega),
      List.getD_eq_default _ _ (by omega)]

/-- Invariant of sequential first-fit insertion, specialized to one probe
start `h / 256 % size` and one target predicate `Tb` (whose holders all carry
hash `h ≠ 0`): after inserting `es` on top of a table whose occupied slots
all come from `done`, (1) occupied slots of the result come from
`done ++ es`, and (2) if `done ++ es` has a first `Tb`-element, it sits at
some probe distance `d` and every earlier probe slot is occupied by a
non-`Tb` entry. -/
theorem buildHashTableT_invariant (size h : Nat) (hh : h ≠ 0) (Tb : entry → Bool)
    (hT : ∀ e, Tb e = true → e.hash = h) :
    ∀ (es done : List entry) (tbl : List entry),
      tbl.length = size →
      nzCount tbl + es.length ≤ size →
      (∀ j, (tbl.getD j default).hash ≠ 0 → tbl.getD j default ∈ done) →
      (∀ e₀, done.find? Tb = some e₀ →
        ∃ d, d < size ∧ tbl.getD ((h / 256 % size + d) % size) default = e₀ ∧
          ∀ t < d, (tbl.getD ((h / 256 % size + t) % size) default).hash ≠ 0 ∧
            Tb (tbl.getD ((h / 256 % size + t) % size) default) = false) →
      (∀ j, ((buildHashTableT tbl es).getD j default).hash ≠ 0 →
          (buildHashTableT tbl es).getD j default ∈ done ++ es) ∧
      (∀ e₀, (done ++ es).find? Tb = some e₀ →
        ∃ d, d < size ∧ (buildHashTableT tbl es).getD ((h / 256 % size + d) % size) default = e₀ ∧
          ∀ t < d, (((buildHashTableT tbl es).getD ((h / 256 % size + t) % size) default).hash ≠ 0 ∧
            Tb ((buildHashTableT tbl es).getD ((h / 256 % size + t) % size) default) = false)) := by
  intro es
  induction es with
  | nil =>
    intro done tbl hlen hnz hmem hpath
    simp only [buildHashTableT, List.foldl_nil, List.append_nil]
    exact ⟨hmem, hpath⟩
  | cons e es ih =>
    intro done tbl hlen hnz hmem hpath
    have hnzlt : nzCount tbl < size := by
      simp only [List.length_cons] at hnz; omega
    have hszpos : 0 < size := by omega
    obtain ⟨j, hpf⟩ := probeFind_isSome tbl (e.hash / 256 % tbl.length)
      (Nat.mod_lt _ (by omega)) (by omega)
    obtain ⟨de, hde, hj, hjz, hjpath⟩ := probeFind_some_char tbl tbl.length tbl.length
      (e.hash / 256 % tbl.length) j (Nat.mod_lt _ (by omega)) hpf
    have hset : placeEntryT tbl e = tbl.set j e := by rw [placeEntryT, hpf]
    have hfold : buildHashTableT tbl (e :: es) = buildHashTableT (tbl.set j e) es := by
      rw [buildHashTableT, List.foldl_cons, ← buildHashTableT, hset]
    have hjlt : j < tbl.length := by rw [hj]; exact Nat.mod_lt _ (by omega)
    -- the new state satisfies the invariant for `done ++ [e]`
    have hlen' : (tbl.set j e).length = size := by rw [List.length_set]; exact hlen
    have hnz' : nzCount (tbl.set j e) + es.length ≤ size := by
      have := nzCount_set_le tbl j e
      simp only [List.length_cons] at hnz
      omega
    have hmem' : ∀ j', ((tbl.set j e).getD j' default).hash ≠ 0 →
        (tbl.set j e).getD j' default ∈ done ++ [e] := by
      intro j' hj'
      by_cases hcase : j = j'
      · subst hcase
        rw [getD_set_self' tbl j e hjlt] at *
        exact List.mem_append_right _ (List.mem_singleton.mpr rfl)
      · rw [getD_set_ne' tbl j j' e hcase] at *
        exact List.mem_append_left _ (hmem j' hj')
    have hpath' : ∀ e₀, (done ++ [e]).find? Tb = some e₀ →
        ∃ d, d < size ∧ (tbl.set j e).getD ((h / 256 % size + d) % size) default = e₀ ∧
          ∀ t < d, ((tbl.set j e).getD ((h / 256 % size + t) % size) default).hash ≠ 0 ∧
            Tb ((tbl.set j e).getD ((h / 256 % size + t) % size) default) = false := by
      intro e₀ hfind
      rw [List.find?_append] at hfind
      cases hfd : done.find? Tb with
      | some e₁ =>
        rw [hfd] at hfind
        have he₀ : e₀ = e₁ := by
          simp only [Option.or_some] at hfind
          exact (Option.some_inj.mp hfind).symm
        subst he₀
        obtain ⟨d, hd, hslot, hpth⟩ := hpath e₀ hfd
        have hhash₀ : (tbl.getD ((h / 256 % size + d) % size) default).hash ≠ 0 := by
          rw [hslot]
          rw [hT e₀ (List.find?_some hfd)]
          exact hh
        have hne : ∀ t, t ≤ d →
            (h / 256 % size + t) % size ≠ j := by
          intro t ht hcontra
          have : (tbl.getD j default).hash ≠ 0 := by
            rw [← hcontra]
            rcases Nat.lt_or_ge t d with hlt | hge
            · exact (hpth t hlt).1
            · have : t = d := by omega
              subst this
              exact hhash₀
          exact this hjz
        refine ⟨d, hd, ?_, ?_⟩
        · rw [getD_set_ne' tbl j _ e (fun hc => hne d (Nat.le_refl d) hc.symm)]
          exact hslot
        · intro t ht
          rw [getD_set_ne' tbl j _ e (fun hc => hne t (by omega) hc.symm)]
          exact hpth t ht
      | none =>
        rw [hfd] at hfind
        simp only [Option.none_or] at hfind
        have hTe : Tb e = true := by
          cases hT2 : Tb e with
          | true => rfl
          | false =>
            rw [List.find?_cons_of_neg _ (by simp [hT2]), List.find?_nil] at hfind
            exact absurd hfind (by simp)
        have he₀ : e₀ = e := by
          rw [List.find?_cons_of_pos _ hTe] at hfind
          exact (Option.some_inj.mp hfind).symm
        rw [he₀]
        have hstart : e.hash / 256 % tbl.length = h / 256 % size := by
          rw [hT e hTe, hlen]
        refine ⟨de, by omega, ?_, ?_⟩
        · have : (h / 256 % size + de) % size = j := by
            rw [hj, hstart, hlen]
          rw [this]
          exact getD_set_self' tbl j e hjlt
        · intro t ht
          have hidx : (h / 256 % size + t) % size ≠ j := by
            intro hc
            have h1 := hjpath t ht
            rw [hstart, hlen] at h1
            rw [hc] at h1
            exact h1 hjz
          rw [getD_set_ne' tbl j _ e (fun hc => hidx hc.symm)]
          constructor
          · have h1 := hjpath t ht
            rwa [hstart, hlen] at h1
          · have h1 := hjpath t ht
            rw [hstart, hlen] at h1
            have hmem1 := hmem _ h1
            have := List.find?_eq_none.mp hfd _ hmem1
            exact Bool.not_eq_true _ ▸ (by simpa using this)
    have hconc := ih (done ++ [e]) (tbl.set j e) hlen' hnz' hmem' hpath'
    rw [hfold]
    have happ : done ++ [e] ++ es = done ++ e :: es := by
      rw [List.append_assoc]; rfl
    rw [happ] at hconc
    exact hconc

/-! ## Walking the reader's probe loop -/

theorem getProbe_success (data : List Nat) (tOff size h : Nat) (q v : List Nat)
    (hh0 : h ≠ 0) :
    ∀ d fuel slot, slot < size → d < fuel →
      (∀ t < d,
        (readTupleMmap data (tOff + 16 * ((slot + t) % size))).1 ≠ 0 ∧
        ((readTupleMmap data (tOff + 16 * ((slot + t) % size))).1 = h →
          getValueAt data (readTupleMmap data (tOff + 16 * ((slot + t) % size))).2 q = none)) →
      (readTupleMmap data (tOff + 16 * ((slot + d) % size))).1 = h →
      getValueAt data (readTupleMmap data (tOff + 16 * ((slot + d) % size))).2 q = some v →
      getProbe data tOff size h q fuel slot = some v := by
  intro d
  induction d with
  | zero =>
    intro fuel slot hs hf hpath hh hv
    match fuel with
    | fuel + 1 =>
      rw [Nat.add_zero, Nat.mod_eq_of_lt hs] at hh hv
      rw [getProbe]
      rw [if_neg (by rw [hh]; exact hh0), if_pos hh, hv]
  | succ d ihd =>
    intro fuel slot hs hf hpath hh hv
    match fuel with
    | fuel + 1 =>
      have h0 := hpath 0 (by omega)
      rw [Nat.add_zero, Nat.mod_eq_of_lt hs] at h0
      have hidx : ∀ t : Nat, ((slot + 1) % size + t) % size = (slot + (t + 1)) % size := by
        intro t
        rw [Nat.mod_add_mod]
        congr 1
        omega
      have hrec : getProbe data tOff size h q fuel ((slot + 1) % size) = some v := by
        apply ihd fuel ((slot + 1) % size) (Nat.mod_lt _ (by omega)) (by omega)
        · intro t ht
          rw [hidx t]
          exact hpath (t + 1) (by omega)
        · rw [hidx d]; exact hh
        · rw [hidx d]; exact hv
      rw [getProbe]
      rw [if_neg h0.1]
      by_cases hcase : (readTupleMmap data (tOff + 16 * slot)).1 = h
      · rw [if_pos hcase, h0.2 hcase]
        exact hrec
      · rw [if_neg hcase]
        exact hrec

theorem getProbe_none (data : List Nat) (tOff size h : Nat) (q : List Nat)
    (hmiss : ∀ j < size, (readTupleMmap data (tOff + 16 * j)).1 ≠ 0 →
      (readTupleMmap data (tOff + 16 * j)).1 = h →
      getValueAt data (readTupleMmap data (tOff + 16 * j)).2 q = none) :
    ∀ fuel slot, slot < size → getProbe data tOff size h q fuel slot = none := by
  intro fuel
  induction fuel with
  | zero => intro slot hs; rfl
  | succ fuel ih =>
    intro slot hs
    rw [getProbe]
    by_cases h0 : (readTupleMmap data (tOff + 16 * slot)).1 = 0
    · rw [if_pos h0]
    · rw [if_neg h0]
      by_cases hcase : (readTupleMmap data (tOff + 16 * slot)).1 = h
      · rw [if_pos hcase, hmiss slot hs h0 hcase]
        exact ih _ (Nat.mod_lt _ (by omega))
      · rw [if_neg hcase]
        exact ih _ (Nat.mod_lt _ (by omega))

theorem getProbe_hash_zero (data : List Nat) (tOff tLen : Nat) (q : List Nat) :
    ∀ fuel slot, getProbe data tOff tLen 0 q fuel slot = none := by
  intro fuel
  induction fuel with
  | zero => intro slot; rfl
  | succ fuel ih =>
    intro slot
    rw [getProbe]
    by_cases h0 : (readTupleMmap data (tOff + 16 * slot)).1 = 0
    · rw [if_pos h0]
    · rw [if_neg h0, if_neg h0]
      exact ih _

theorem getProbeSteps_le (data : List Nat) (tOff tLen h : Nat) (q : List Nat) :
    ∀ fuel slot, getProbeSteps data tOff tLen h q fuel slot ≤ fuel := by
  intro fuel
  induction fuel with
  | zero => intro slot; exact Nat.le_refl 0
  | succ fuel ih =>
    intro slot
    rw [getProbeSteps]
    by_cases h0 : (readTupleMmap data (tOff + 16 * slot)).1 = 0
    · rw [if_pos h0]; omega
    · rw [if_neg h0]
      by_cases hcase : (readTupleMmap data (tOff + 16 * slot)).1 = h
      · rw [if_pos hcase]
        cases hgv : getValueAt data (readTupleMmap data (tOff + 16 * slot)).2 q with
        | some w =>
          show (1 : Nat) ≤ fuel + 1
          omega
        | none =>
          show 1 + getProbeSteps data tOff tLen h q fuel ((slot + 1) % tLen) ≤ fuel + 1
          have := ih ((slot + 1) % tLen)
          omega
      · rw [if_neg hcase]
        have := ih ((slot + 1) % tLen)
        omega

theorem getProbeSteps_success (data : List Nat) (tOff size h : Nat) (q v : List Nat)
    (hh0 : h ≠ 0) :
    ∀ d fuel slot, slot < size → d < fuel →
      (∀ t < d,
        (readTupleMmap data (tOff + 16 * ((slot + t) % size))).1 ≠ 0 ∧
        ((readTupleMmap data (tOff + 16 * ((slot + t) % size))).1 = h →
          getValueAt data (readTupleMmap data (tOff + 16 * ((slot + t) % size))).2 q = none)) →
      (readTupleMmap data (tOff + 16 * ((slot + d) % size))).1 = h →
      getValueAt data (readTupleMmap data (tOff + 16 * ((slot + d) % size))).2 q = some v →
      getProbeSteps data tOff size h q fuel slot = d + 1 := by
  intro d
  induction d with
  | zero =>
    intro fuel slot hs hf hpath hh hv
    match fuel with
    | fuel + 1 =>
      rw [Nat.add_zero, Nat.mod_eq_of_lt hs] at hh hv
      rw [getProbeSteps]
      rw [if_neg (by rw [hh]; exact hh0), if_pos hh, hv]
  | succ d ihd =>
    intro fuel slot hs hf hpath hh hv
    match fuel with
    | fuel + 1 =>
      have h0 := hpath 0 (by omega)
      rw [Nat.add_zero, Nat.mod_eq_of_lt hs] at h0
      have hidx : ∀ t : Nat, ((slot + 1) % size + t) % size = (slot + (t + 1)) % size := by
        intro t
        rw [Nat.mod_add_mod]
        congr 1
        omega
      have hrec : getProbeSteps data tOff size h q fuel ((slot + 1) % size) = d + 1 := by
        apply ihd fuel ((slot + 1) % size) (Nat.mod_lt _ (by omega)) (by omega)
        · intro t ht
          rw [hidx t]
          exact hpath (t + 1) (by omega)
        · rw [hidx d]; exact hh
        · rw [hidx d]; exact hv
      rw [getProbeSteps]
      rw [if_neg h0.1]
      by_cases hcase : (readTupleMmap data (tOff + 16 * slot)).1 = h
      · rw [if_pos hcase, h0.2 hcase]
        show 1 + getProbeSteps data tOff size h q fuel ((slot + 1) % size) = d + 1 + 1
        rw [hrec]
        omega
      · rw [if_neg hcase]
        show 1 + getProbeSteps data tOff size h q fuel ((slot + 1) % size) = d + 1 + 1
        rw [hrec]
        omega

/-! ## Locating the first record with a given key -/

theorem find?_filter_of_imp {α : Type} (p f : α → Bool) (himp : ∀ x, p x = true → f x = true) :
    ∀ l : List α, (l.filter f).find? p = l.find? p := by
  intro l
  induction l with
  | nil => rfl
  | cons a l ih =>
    rw [List.filter_cons]
    by_cases hf : f a = true
    · rw [if_pos hf]
      by_cases hp : p a = true
      · rw [List.find?_cons_of_pos _ hp, List.find?_cons_of_pos _ hp]
      · rw [List.find?_cons_of_neg _ (by simp [hp]), List.find?_cons_of_neg _ (by simp [hp])]
        exact ih
    · rw [if_neg hf]
      have hp : ¬ p a = true := fun hc => hf (himp a hc)
      rw [List.find?_cons_of_neg _ (by simp [hp])]
      exact ih

theorem find?_congr' {α : Type} (p p' : α → Bool) :
    ∀ l : List α, (∀ x ∈ l, p x = p' x) → l.find? p = l.find? p' := by
  intro l
  induction l with
  | nil => intro _; rfl
  | cons a l ih =>
    intro hpt
    have ha := hpt a (List.mem_cons_self a l)
    by_cases hp : p a = true
    · rw [List.find?_cons_of_pos _ hp, List.find?_cons_of_pos _ (ha ▸ hp)]
    · rw [List.find?_cons_of_neg _ (by simp [hp]),
        List.find?_cons_of_neg _ (by simp [← ha, hp])]
      exact ih fun x hx => hpt x (List.mem_cons_of_mem a hx)

theorem find?_annotFrom (ps : List (List Nat × List Nat)) (q : List Nat) :
    ∀ off0 pr, ps.find? (fun x => x.1 == q) = some pr →
      ∃ off', (annotFrom off0 ps).find? (fun r => r.key == q) = some ⟨pr.1, pr.2, off'⟩ := by
  induction ps with
  | nil => intro off0 pr h; simp [List.find?] at h
  | cons p ps ih =>
    intro off0 pr h
    by_cases hp : (p.1 == q) = true
    · rw [@List.find?_cons_of_pos _ (fun x => x.1 == q) p ps hp] at h
      have hpr : pr = p := (Option.some_inj.mp h).symm
      refine ⟨off0, ?_⟩
      rw [annotFrom, @List.find?_cons_of_pos recInfo (fun r => r.key == q) ⟨p.1, p.2, off0⟩
        (annotFrom (off0 + recSize p) ps) (by simpa using hp), hpr]
    · rw [@List.find?_cons_of_neg _ (fun x => x.1 == q) p ps (by simp [hp])] at h
      obtain ⟨off', hoff'⟩ := ih (off0 + recSize p) pr h
      refine ⟨off', ?_⟩
      rw [annotFrom, @List.find?_cons_of_neg recInfo (fun r => r.key == q) ⟨p.1, p.2, off0⟩
        (annotFrom (off0 + recSize p) ps) (by simpa using hp)]
      exact hoff'

/-! ## Assembling lookup correctness -/

theorem getD_replicate_default (n j : Nat) :
    (List.replicate n (default : entry)).getD j default = default := by
  by_cases hj : j < n
  · rw [List.getD_eq_getElem _ _ (by simpa using hj)]
    exact List.getElem_replicate _ _
  · rw [List.getD_eq_default _ _ (by simpa using hj)]

theorem mem_bucketRecs (ps : List (List Nat × List Nat)) (r : recInfo)
    (hr : r ∈ annot ps) : r ∈ bucketRecs ps (cdbHash r.key % 256) := by
  rw [bucketRecs, List.mem_filter]
  exact ⟨hr, by simp⟩

theorem getValueAt_entry (ps : List (List Nat × List Nat)) (hsz : sizeOk ps)
    (r : recInfo) (hr : r ∈ annot ps) (q : List Nat) :
    getValueAt (fileT ps) r.off q = if q = r.key then some r.val else none := by
  obtain ⟨rest, hrest⟩ := fileT_drop_record ps r hr
  have hb := annotFrom_bound ps indexSize r hr
  have hs : indexSize + dSize ps + tSize ps < 2 ^ 63 := hsz
  exact getValueAt_record _ _ _ _ _ hrest (by omega) (by omega) q

theorem TbFun_mem (ps : List (List Nat × List Nat)) (q : List Nat) (e : entry) :
    TbFun ps q e = true ↔ e ∈ targetEntries ps q := by
  rw [TbFun]
  exact List.elem_iff

theorem TbFun_hash (ps : List (List Nat × List Nat)) (q : List Nat) (e : entry)
    (he : TbFun ps q e = true) : e.hash = cdbHash q := by
  rw [TbFun_mem, targetEntries] at he
  obtain ⟨r, hr, rfl⟩ := List.mem_map.mp he
  have hk : r.key = q := by
    have := (List.mem_filter.mp hr).2
    simpa using this
  rw [recEntry, hk]

theorem bucketEntries_find_target (ps : List (List Nat × List Nat)) (q v : List Nat)
    (off : Nat)
    (hoff : (annot ps).find? (fun r => r.key == q) = some ⟨q, v, off⟩) :
    (bucketEntries ps (cdbHash q % 256)).find? (TbFun ps q) =
      some ⟨cdbHash q, off⟩ := by
  rw [bucketEntries, List.find?_map]
  have hcongr : (bucketRecs ps (cdbHash q % 256)).find? (TbFun ps q ∘ recEntry)
      = (bucketRecs ps (cdbHash q % 256)).find? (fun r => r.key == q) := by
    apply find?_congr'
    intro r hrmem
    show TbFun ps q (recEntry r) = (r.key == q)
    by_cases hk : (r.key == q) = true
    · rw [hk]
      rw [TbFun_mem, targetEntries]
      exact List.mem_map_of_mem recEntry (List.mem_filter.mpr ⟨hrmem, hk⟩)
    · have hnT : ¬ TbFun ps q (recEntry r) = true := by
        intro hc
        rw [TbFun_mem, targetEntries] at hc
        obtain ⟨r', hr', heq⟩ := List.mem_map.mp hc
        have hr'f := List.mem_filter.mp hr'
        have hoffeq : r'.off = r.off := congrArg entry.offset heq
        have hrann : r ∈ annot ps := (List.mem_filter.mp hrmem).1
        have hr'ann : r' ∈ annot ps := (List.mem_filter.mp hr'f.1).1
        have hre : r' = r := annotFrom_inj ps indexSize r' r hr'ann hrann hoffeq
        rw [hre] at hr'f
        exact hk hr'f.2
      have hkf : (r.key == q) = false := by
        cases hkk : (r.key == q) with
        | true => exact absurd hkk hk
        | false => rfl
      have hTf : TbFun ps q (recEntry r) = false := by
        cases hTT : TbFun ps q (recEntry r) with
        | true => exact absurd hTT hnT
        | false => rfl
      rw [hkf, hTf]
  have hfil : (bucketRecs ps (cdbHash q % 256)).find? (fun r => r.key == q)
      = (annot ps).find? (fun r => r.key == q) := by
    rw [bucketRecs]
    apply find?_filter_of_imp
    intro r hr
    have hkq : r.key = q := by simpa using hr
    simp [hkq]
  rw [hcongr, hfil, hoff]
  rfl

theorem roundtrip_main (ps : List (List Nat × List Nat)) (q v : List Nat)
    (hsz : sizeOk ps) (hh0 : cdbHash q ≠ 0)
    (hfind : ps.find? (fun x => x.1 == q) = some (q, v)) :
    ∃ off d,
      (annot ps).find? (fun r => r.key == q) = some ⟨q, v, off⟩ ∧
      d < 2 * numRec ps (cdbHash q % 256) ∧
      (writtenTable ps (cdbHash q % 256)).getD
        ((cdbHash q / 256 % (2 * numRec ps (cdbHash q % 256)) + d) %
          (2 * numRec ps (cdbHash q % 256))) default = ⟨cdbHash q, off⟩ ∧
      mmapGet (fileT ps) q = some v ∧
      mmapGetSteps (fileT ps) q = d + 1 := by
  obtain ⟨off, hoff⟩ := find?_annotFrom ps q indexSize (q, v) hfind
  simp only at hoff
  have hrmem : (⟨q, v, off⟩ : recInfo) ∈ annot ps := List.mem_of_find?_eq_some hoff
  have hrb : (⟨q, v, off⟩ : recInfo) ∈ bucketRecs ps (cdbHash q % 256) :=
    mem_bucketRecs ps ⟨q, v, off⟩ hrmem
  have hn : numRec ps (cdbHash q % 256) ≠ 0 := by
    rw [numRec]
    have := List.length_pos.mpr (List.ne_nil_of_mem hrb)
    omega
  have hb256 : cdbHash q % 256 < 256 := Nat.mod_lt _ (by norm_num)
  have hszpos : 0 < 2 * numRec ps (cdbHash q % 256) := by omega
  have htab := readTableAt_fileT ps (cdbHash q % 256) hb256 hsz
  rw [if_neg hn] at htab
  -- build the open-addressing invariant for the query's bucket
  have hinv := buildHashTableT_invariant (2 * numRec ps (cdbHash q % 256)) (cdbHash q)
    hh0 (TbFun ps q) (TbFun_hash ps q)
    (bucketEntries ps (cdbHash q % 256)) []
    (List.replicate (2 * numRec ps (cdbHash q % 256)) default)
    (by rw [List.length_replicate])
    (by rw [nzCount_replicate, bucketEntries_length]; omega)
    (by
      intro j hj
      rw [getD_replicate_default] at hj
      exact absurd rfl hj)
    (by
      intro e₀ hc
      rw [List.find?_nil] at hc
      exact absurd hc (by simp))
  rw [List.nil_append] at hinv
  obtain ⟨hmemf, hpathf⟩ := hinv
  have hfirst := bucketEntries_find_target ps q v off hoff
  obtain ⟨d, hd, hslot, hpath⟩ := hpathf ⟨cdbHash q, off⟩ hfirst
  -- slot facts
  have hwt : writtenTable ps (cdbHash q % 256) =
      buildHashTableT (List.replicate (2 * numRec ps (cdbHash q % 256)) default)
        (bucketEntries ps (cdbHash q % 256)) := rfl
  rw [← hwt] at hslot hpath hmemf
  have hs0 : cdbHash q / 256 % (2 * numRec ps (cdbHash q % 256))
      < 2 * numRec ps (cdbHash q % 256) := Nat.mod_lt _ hszpos
  -- skip facts for the probe walk
  have hskip : ∀ t < d,
      (readTupleMmap (fileT ps) (tblOff ps (cdbHash q % 256) + 16 *
        ((cdbHash q / 256 % (2 * numRec ps (cdbHash q % 256)) + t) %
          (2 * numRec ps (cdbHash q % 256))))).1 ≠ 0 ∧
      ((readTupleMmap (fileT ps) (tblOff ps (cdbHash q % 256) + 16 *
        ((cdbHash q / 256 % (2 * numRec ps (cdbHash q % 256)) + t) %
          (2 * numRec ps (cdbHash q % 256))))).1 = cdbHash q →
        getValueAt (fileT ps) (readTupleMmap (fileT ps) (tblOff ps (cdbHash q % 256) + 16 *
          ((cdbHash q / 256 % (2 * numRec ps (cdbHash q % 256)) + t) %
            (2 * numRec ps (cdbHash q % 256))))).2 q = none) := by
    intro t ht
    have hjlt : (cdbHash q / 256 % (2 * numRec ps (cdbHash q % 256)) + t) %
        (2 * numRec ps (cdbHash q % 256)) < 2 * numRec ps (cdbHash q % 256) :=
      Nat.mod_lt _ hszpos
    have hread := readTuple_slot ps (cdbHash q % 256) hb256 hn hsz _ hjlt
    rw [hread]
    obtain ⟨hnz, hTf⟩ := hpath t ht
    refine ⟨hnz, ?_⟩
    intro hheq
    have hmem := hmemf _ hnz
    obtain ⟨r, hrann, hre, hrbuk⟩ := bucketEntries_spec ps (cdbHash q % 256) _ hmem
    have hkey : r.key ≠ q := by
      intro hc
      have hrfil : r ∈ (bucketRecs ps (cdbHash q % 256)).filter fun r => r.key == q := by
        rw [List.mem_filter]
        refine ⟨?_, by simp [hc]⟩
        have := mem_bucketRecs ps r hrann
        rwa [hc] at this
      have hTt : TbFun ps q ((writtenTable ps (cdbHash q % 256)).getD
          ((cdbHash q / 256 % (2 * numRec ps (cdbHash q % 256)) + t) %
            (2 * numRec ps (cdbHash q % 256))) default) = true := by
        rw [TbFun_mem, targetEntries, hre]
        exact List.mem_map_of_mem recEntry hrfil
      rw [hTf] at hTt
      exact absurd hTt (by simp)
    show getValueAt (fileT ps) ((writtenTable ps (cdbHash q % 256)).getD
        ((cdbHash q / 256 % (2 * numRec ps (cdbHash q % 256)) + t) %
          (2 * numRec ps (cdbHash q % 256))) default).offset q = none
    rw [hre]
    show getValueAt (fileT ps) r.off q = none
    rw [getValueAt_entry ps hsz r hrann q, if_neg (fun hc => hkey hc.symm)]
  -- hit fact
  have hhit : (readTupleMmap (fileT ps) (tblOff ps (cdbHash q % 256) + 16 *
      ((cdbHash q / 256 % (2 * numRec ps (cdbHash q % 256)) + d) %
        (2 * numRec ps (cdbHash q % 256))))).1 = cdbHash q ∧
      getValueAt (fileT ps) (readTupleMmap (fileT ps) (tblOff ps (cdbHash q % 256) + 16 *
        ((cdbHash q / 256 % (2 * numRec ps (cdbHash q % 256)) + d) %
          (2 * numRec ps (cdbHash q % 256))))).2 q = some v := by
    have hjlt : (cdbHash q / 256 % (2 * numRec ps (cdbHash q % 256)) + d) %
        (2 * numRec ps (cdbHash q % 256)) < 2 * numRec ps (cdbHash q % 256) :=
      Nat.mod_lt _ hszpos
    have hread := readTuple_slot ps (cdbHash q % 256) hb256 hn hsz _ hjlt
    rw [hread, hslot]
    refine ⟨rfl, ?_⟩
    show getValueAt (fileT ps) off q = some v
    have hgv := getValueAt_entry ps hsz ⟨q, v, off⟩ hrmem q
    simp only at hgv
    rw [hgv]
    simp
  -- conclude
  refine ⟨off, d, hoff, hd, hslot, ?_, ?_⟩
  · show (if (readTableAt (fileT ps) (cdbHash q % 256)).length = 0 then none
      else getProbe (fileT ps) (readTableAt (fileT ps) (cdbHash q % 256)).offset
        (readTableAt (fileT ps) (cdbHash q % 256)).length (cdbHash q) q
        (readTableAt (fileT ps) (cdbHash q % 256)).length
        (cdbHash q / 256 % (readTableAt (fileT ps) (cdbHash q % 256)).length)) = some v
    rw [htab]
    simp only
    rw [if_neg (by omega)]
    exact getProbe_success (fileT ps) (tblOff ps (cdbHash q % 256))
      (2 * numRec ps (cdbHash q % 256)) (cdbHash q) q v hh0 d
      (2 * numRec ps (cdbHash q % 256)) _ hs0 hd hskip hhit.1 hhit.2
  · show (if (readTableAt (fileT ps) (cdbHash q % 256)).length = 0 then 0
      else getProbeSteps (fileT ps) (readTableAt (fileT ps) (cdbHash q % 256)).offset
        (readTableAt (fileT ps) (cdbHash q % 256)).length (cdbHash q) q
        (readTableAt (fileT ps) (cdbHash q % 256)).length
        (cdbHash q / 256 % (readTableAt (fileT ps) (cdbHash q % 256)).length)) = d + 1
    rw [htab]
    simp only
    rw [if_neg (by omega)]
    exact getProbeSteps_success (fileT ps) (tblOff ps (cdbHash q % 256))
      (2 * numRec ps (cdbHash q % 256)) (cdbHash q) q v hh0 d
      (2 * numRec ps (cdbHash q % 256)) _ hs0 hd hskip hhit.1 hhit.2

theorem get_absent (ps : List (List Nat × List Nat)) (q : List Nat)
    (hsz : sizeOk ps) (habs : ∀ p ∈ ps, p.1 ≠ q) :
    mmapGet (fileT ps) q = none := by
  have hb256 : cdbHash q % 256 < 256 := Nat.mod_lt _ (by norm_num)
  have htab := readTableAt_fileT ps (cdbHash q % 256) hb256 hsz
  show (if (readTableAt (fileT ps) (cdbHash q % 256)).length = 0 then none
      else getProbe (fileT ps) (readTableAt (fileT ps) (cdbHash q % 256)).offset
        (readTableAt (fileT ps) (cdbHash q % 256)).length (cdbHash q) q
        (readTableAt (fileT ps) (cdbHash q % 256)).length
        (cdbHash q / 256 % (readTableAt (fileT ps) (cdbHash q % 256)).length)) = none
  by_cases hn : numRec ps (cdbHash q % 256) = 0
  · rw [htab, if_pos hn]
    simp
  · rw [htab, if_neg hn]
    simp only
    have hszpos : 0 < 2 * numRec ps (cdbHash q % 256) := by omega
    rw [if_neg (by omega : ¬ 2 * numRec ps (cdbHash q % 256) = 0)]
    apply getProbe_none
    · intro j hj hnz hhq
      have hread := readTuple_slot ps (cdbHash q % 256) hb256 hn hsz j hj
      rw [hread] at hnz hhq ⊢
      have hjlen : j < (writtenTable ps (cdbHash q % 256)).length := by
        rw [writtenTable_length]; exact hj
      have hmem : (writtenTable ps (cdbHash q % 256)).getD j default
          ∈ writtenTable ps (cdbHash q % 256) := by
        rw [List.getD_eq_getElem _ _ hjlen]
        exact List.getElem_mem hjlen
      rcases writtenTable_mem ps (cdbHash q % 256) _ hmem with hdef | hbe
      · rw [hdef] at hnz
        exact absurd rfl hnz
      · obtain ⟨r, hrann, hre, _⟩ := bucketEntries_spec ps (cdbHash q % 256) _ hbe
        show getValueAt (fileT ps)
          ((writtenTable ps (cdbHash q % 256)).getD j default).offset q = none
        rw [hre]
        show getValueAt (fileT ps) r.off q = none
        have hkey : r.key ≠ q := habs (r.key, r.val) (annotFrom_mem_pair ps indexSize r hrann)
        rw [getValueAt_entry ps hsz r hrann q, if_neg (fun hc => hkey hc.symm)]
    · exact Nat.mod_lt _ hszpos

theorem mmapGet_hash_zero (data : List Nat) (q : List Nat) (h0 : cdbHash q = 0) :
    mmapGet data q = none := by
  show (if (readTableAt data (cdbHash q % 256)).length = 0 then none
      else getProbe data (readTableAt data (cdbHash q % 256)).offset
        (readTableAt data (cdbHash q % 256)).length (cdbHash q) q
        (readTableAt data (cdbHash q % 256)).length
        (cdbHash q / 256 % (readTableAt data (cdbHash q % 256)).length)) = none
  rw [h0]
  by_cases hl : (readTableAt data (0 % 256)).length = 0
  · rw [if_pos hl]
  · rw [if_neg hl]
    exact getProbe_hash_zero data _ _ q _ _

/-! ## Scanner correctness -/

theorem foldl_min_le (f : Nat → table) :
    ∀ (bs : List Nat) (e0 : Nat),
      bs.foldl (fun endPos i =>
        if 0 < (f i).length ∧ (f i).offset < endPos then (f i).offset else endPos) e0 ≤ e0 := by
  intro bs
  induction bs with
  | nil => intro e0; exact Nat.le_refl _
  | cons b bs ih =>
    intro e0
    rw [List.foldl_cons]
    by_cases hc : 0 < (f b).length ∧ (f b).offset < e0
    · rw [if_pos hc]
      calc _ ≤ (f b).offset := ih _
        _ ≤ e0 := by omega
    · rw [if_neg hc]
      exact ih e0

theorem foldl_min_le_valid (f : Nat → table) :
    ∀ (bs : List Nat) (e0 : Nat) (b : Nat), b ∈ bs → 0 < (f b).length →
      bs.foldl (fun endPos i =>
        if 0 < (f i).length ∧ (f i).offset < endPos then (f i).offset else endPos) e0
        ≤ (f b).offset := by
  intro bs
  induction bs with
  | nil => intro e0 b hb; simp at hb
  | cons a bs ih =>
    intro e0 b hb hlen
    rw [List.foldl_cons]
    rcases List.mem_cons.mp hb with h | h
    · subst h
      by_cases hc : 0 < (f b).length ∧ (f b).offset < e0
      · rw [if_pos hc]
        exact foldl_min_le f bs _
      · rw [if_neg hc]
        have : e0 ≤ (f b).offset := by
          rcases Nat.lt_or_ge (f b).offset e0 with h1 | h1
          · exact absurd ⟨hlen, h1⟩ hc
          · exact h1
        calc _ ≤ e0 := foldl_min_le f bs e0
          _ ≤ (f b).offset := this
    · exact ih _ b h hlen

theorem foldl_min_mem (f : Nat → table) :
    ∀ (bs : List Nat) (e0 : Nat),
      bs.foldl (fun endPos i =>
        if 0 < (f i).length ∧ (f i).offset < endPos then (f i).offset else endPos) e0 = e0
      ∨ ∃ b ∈ bs, 0 < (f b).length ∧
        bs.foldl (fun endPos i =>
          if 0 < (f i).length ∧ (f i).offset < endPos then (f i).offset else endPos) e0
          = (f b).offset := by
  intro bs
  induction bs with
  | nil => intro e0; exact Or.inl rfl
  | cons a bs ih =>
    intro e0
    rw [List.foldl_cons]
    by_cases hc : 0 < (f a).length ∧ (f a).offset < e0
    · rw [if_pos hc]
      rcases ih ((f a).offset) with h | ⟨b, hb, hbl, hbe⟩
      · exact Or.inr ⟨a, List.mem_cons_self a bs, hc.1, h⟩
      · exact Or.inr ⟨b, List.mem_cons_of_mem a hb, hbl, hbe⟩
    · rw [if_neg hc]
      rcases ih e0 with h | ⟨b, hb, hbl, hbe⟩
      · exact Or.inl h
      · exact Or.inr ⟨b, List.mem_cons_of_mem a hb, hbl, hbe⟩

theorem exists_nonempty_bucket (ps : List (List Nat × List Nat)) (h : ps ≠ []) :
    ∃ b, numRec ps b ≠ 0 := by
  match ps, h with
  | p :: ps', _ =>
    refine ⟨cdbHash p.1 % 256, ?_⟩
    rw [numRec]
    have hmem0 : (⟨p.1, p.2, indexSize⟩ : recInfo) ∈ annot (p :: ps') := by
      rw [annot, annotFrom]
      exact List.mem_cons_self _ _
    have hmem : (⟨p.1, p.2, indexSize⟩ : recInfo)
        ∈ bucketRecs (p :: ps') (cdbHash p.1 % 256) :=
      mem_bucketRecs (p :: ps') ⟨p.1, p.2, indexSize⟩ hmem0
    have := List.length_pos.mpr (List.ne_nil_of_mem hmem)
    omega

theorem numRec_big (ps : List (List Nat × List Nat)) (b : Nat) (hb : 256 ≤ b) :
    numRec ps b = 0 := by
  rw [numRec, bucketRecs, List.length_eq_zero]
  rw [List.filter_eq_nil_iff]
  intro r _
  have : cdbHash r.key % 256 < 256 := Nat.mod_lt _ (by norm_num)
  simp only [beq_iff_eq]
  omega

theorem scanEnd_fileT (ps : List (List Nat × List Nat)) (hsz : sizeOk ps) :
    scanEnd (fileT ps) = indexSize + dSize ps := by
  have hconv : scanEnd (fileT ps) = (List.range 256).foldl
      (fun endPos i =>
        if 0 < (readTableAt (fileT ps) i).length ∧ (readTableAt (fileT ps) i).offset < endPos
        then (readTableAt (fileT ps) i).offset else endPos) (fileT ps).length := rfl
  by_cases hex : ∃ b, numRec ps b ≠ 0
  · have hb0 := Nat.find_spec hex
    set b0 := Nat.find hex with hb0def
    have hb0lt : b0 < 256 := by
      by_contra hc
      push_neg at hc
      exact hb0 (numRec_big ps b0 hc)
    have hpre : tableSizesPrefix ps b0 = 0 := by
      rw [tableSizesPrefix]
      apply List.sum_eq_zero
      intro x hx
      obtain ⟨b', hb', rfl⟩ := List.mem_map.mp hx
      have hblt : b' < b0 := by simpa using hb'
      have := Nat.find_min hex hblt
      simp only [Ne, Decidable.not_not] at this
      simp [this]
    have htab0 := readTableAt_fileT ps b0 hb0lt hsz
    rw [if_neg hb0] at htab0
    have hupper : scanEnd (fileT ps) ≤ indexSize + dSize ps := by
      rw [hconv]
      have := foldl_min_le_valid (fun i => readTableAt (fileT ps) i) (List.range 256)
        (fileT ps).length b0 (by simpa using hb0lt)
        (by show 0 < (readTableAt (fileT ps) b0).length
            rw [htab0]
            show 0 < 2 * numRec ps b0
            omega)
      simp only at this
      rw [htab0] at this
      simp only at this
      calc _ ≤ tblOff ps b0 := this
        _ = indexSize + dSize ps := by rw [tblOff, hpre]; omega
    have hlower : indexSize + dSize ps ≤ scanEnd (fileT ps) := by
      rw [hconv]
      rcases foldl_min_mem (fun i => readTableAt (fileT ps) i) (List.range 256)
        (fileT ps).length with h | ⟨b, hb, hbl, hbe⟩
      · rw [h, fileT_length]
        omega
      · rw [hbe]
        have hblt : b < 256 := by simpa using hb
        have htabb := readTableAt_fileT ps b hblt hsz
        by_cases hnb : numRec ps b = 0
        · rw [if_pos hnb] at htabb
          rw [htabb] at hbl
          simp at hbl
        · rw [if_neg hnb] at htabb
          rw [htabb]
          simp only [tblOff]
          omega
    omega
  · push_neg at hex
    have hps : ps = [] := by
      by_contra hc
      obtain ⟨b, hb⟩ := exists_nonempty_bucket ps hc
      exact hb (hex b)
    subst hps
    rw [hconv]
    rcases foldl_min_mem (fun i => readTableAt (fileT []) i) (List.range 256)
      (fileT []).length with h | ⟨b, hb, hbl, hbe⟩
    · rw [h, fileT_length]
      have ht0 : tSize ([] : List (List Nat × List Nat)) = 0 := by
        rw [tSize]
        have h1 : (List.range 256).map (fun b => 2 * numRec ([] : List (List Nat × List Nat)) b)
            = (List.range 256).map (fun _ => 0) := List.map_congr_left (fun b _ => rfl)
        rw [h1, List.map_const', List.sum_replicate]
        simp
      rw [ht0]
      omega
    · exfalso
      have hblt : b < 256 := by simpa using hb
      have htabb := readTableAt_fileT [] b hblt hsz
      rw [if_pos (hex b)] at htabb
      rw [htabb] at hbl
      simp at hbl

theorem dSize_append (ps₁ ps₂ : List (List Nat × List Nat)) :
    dSize (ps₁ ++ ps₂) = dSize ps₁ + dSize ps₂ := by
  simp [dSize]

theorem dataRegion_append (ps₁ ps₂ : List (List Nat × List Nat)) :
    dataRegion (ps₁ ++ ps₂) = dataRegion ps₁ ++ dataRegion ps₂ :=
  List.flatMap_append ..

theorem fileT_drop_pos (ps ps₁ : List (List Nat × List Nat))
    (p : List Nat × List Nat) (ps₂ : List (List Nat × List Nat))
    (hps : ps = ps₁ ++ p :: ps₂) :
    (fileT ps).drop (indexSize + dSize ps₁) = recordBytes p ++
      (dataRegion ps₂ ++ tablesBytesT (bucketEntries ps) (List.range 256)) := by
  have hhead : (headIndexBytes (tosTFrom (bucketEntries ps) (indexSize + dSize ps)
      (List.range 256))).length = indexSize := by
    rw [headIndexBytes_length, tosTFrom_length]
    simp [indexSize]
  have hD : dataRegion ps = dataRegion ps₁ ++ (recordBytes p ++ dataRegion ps₂) := by
    rw [hps, dataRegion_append]
    congr 1
  have hlen : dSize ps₁ ≤ dSize ps := by
    rw [hps, dSize_append]
    exact Nat.le_add_right _ _
  rw [fileT, List.append_assoc, drop_append_ge _ _ _ (by rw [hhead]; omega), hhead]
  have h1 : indexSize + dSize ps₁ - indexSize = dSize ps₁ := by omega
  rw [h1, List.drop_append_of_le_length (by rw [dataRegion_length]; omega), hD,
    drop_append_ge _ _ _ (by rw [dataRegion_length])]
  rw [dataRegion_length, Nat.sub_self, List.drop_zero, List.append_assoc]

theorem scanFrom_fileT (ps : List (List Nat × List Nat)) (hsz : sizeOk ps) :
    ∀ ps₂ ps₁, ps = ps₁ ++ ps₂ →
      scanFrom (fileT ps) (indexSize + dSize ps) (indexSize + dSize ps₁) = ps₂ := by
  intro ps₂
  induction ps₂ with
  | nil =>
    intro ps₁ hps
    rw [scanFrom]
    rw [if_neg (by rw [hps, List.append_nil]; omega)]
  | cons p ps₂ ih =>
    intro ps₁ hps
    have hdsz : dSize ps = dSize ps₁ + recSize p + dSize ps₂ := by
      rw [hps, dSize_append]
      simp [dSize]
      omega
    have hlenf : (fileT ps).length = indexSize + dSize ps + tSize ps := fileT_length ps
    have hs : indexSize + dSize ps + tSize ps < 2 ^ 63 := hsz
    have hdrop := fileT_drop_pos ps ps₁ p ps₂ hps
    have hd' : (fileT ps).drop (indexSize + dSize ps₁) = le64 p.1.length ++ le64 p.2.length
        ++ (p.1 ++ (p.2 ++ (dataRegion ps₂ ++ tablesBytesT (bucketEntries ps)
          (List.range 256)))) := by
      rw [hdrop, recordBytes]
      simp [List.append_assoc]
    have hread : readTupleMmap (fileT ps) (indexSize + dSize ps₁) =
        (p.1.length, p.2.length) := by
      apply readTupleMmap_of_drop _ _ _ _ _ hd'
      · rw [recSize] at hdsz; omega
      · rw [recSize] at hdsz; omega
    have hd16 : (fileT ps).drop (indexSize + dSize ps₁ + 16) =
        p.1 ++ (p.2 ++ (dataRegion ps₂ ++ tablesBytesT (bucketEntries ps)
          (List.range 256))) := by
      rw [← List.drop_drop, hd', drop_append_ge _ _ 16 (by simp [le64_length])]
      simp [le64_length]
    rw [scanFrom]
    rw [if_pos (by rw [recSize] at hdsz; omega)]
    rw [if_neg (by rw [hlenf, recSize] at *; omega)]
    simp only [hread]
    rw [if_neg (by rw [hlenf, recSize] at *; omega)]
    have hkey : ((fileT ps).drop (indexSize + dSize ps₁ + 16)).take p.1.length = p.1 := by
      rw [hd16, List.take_left]
    have hval : ((fileT ps).drop (indexSize + dSize ps₁ + 16 + p.1.length)).take p.2.length
        = p.2 := by
      rw [← List.drop_drop, hd16, drop_append_ge _ _ _ (Nat.le_refl _), Nat.sub_self,
        List.drop_zero, List.take_left]
    rw [hkey, hval]
    have hnext : indexSize + dSize ps₁ + (16 + p.1.length + p.2.length)
        = indexSize + dSize (ps₁ ++ [p]) := by
      rw [dSize_append]
      simp [dSize, recSize]
      omega
    rw [hnext, ih (ps₁ ++ [p]) (by rw [hps, List.append_assoc]; rfl)]

theorem scanAll_fileT (ps : List (List Nat × List Nat)) (hsz : sizeOk ps) :
    scanAll (fileT ps) = ps := by
  rw [scanAll, scanEnd_fileT ps hsz]
  have h0 : indexSize = indexSize + dSize ([] : List (List Nat × List Nat)) := by
    simp [dSize]
  rw [h0]
  exact scanFrom_fileT ps hsz ps [] rfl

/-! ## The empty database -/

theorem leVal_replicate_zero (n : Nat) : leVal (List.replicate n 0) = 0 := by
  induction n with
  | zero => rfl
  | succ n ih => simp [List.replicate, leVal, ih]

theorem readLE64_replicate_zero (n off : Nat) :
    readLE64 (List.replicate n 0) off = 0 := by
  rw [readLE64, List.drop_replicate, List.take_replicate, leVal_replicate_zero]

theorem readTableAt_zeros (b : Nat) :
    readTableAt (List.replicate 4096 0) b = ⟨0, 0⟩ := by
  rw [readTableAt, readLE64_replicate_zero, readLE64_replicate_zero]

theorem mmapGet_zeros (k : List Nat) : mmapGet (List.replicate 4096 0) k = none := by
  show (if (readTableAt (List.replicate 4096 0) (cdbHash k % 256)).length = 0 then none
      else getProbe (List.replicate 4096 0)
        (readTableAt (List.replicate 4096 0) (cdbHash k % 256)).offset
        (readTableAt (List.replicate 4096 0) (cdbHash k % 256)).length (cdbHash k) k
        (readTableAt (List.replicate 4096 0) (cdbHash k % 256)).length
        (cdbHash k / 256 % (readTableAt (List.replicate 4096 0) (cdbHash k % 256)).length))
      = none
  rw [readTableAt_zeros]
  rfl

theorem scanAll_zeros : scanAll (List.replicate 4096 0) = [] := by
  rw [scanAll]
  have hend : scanEnd (List.replicate 4096 0) = 4096 := by
    have hconv : scanEnd (List.replicate 4096 0) = (List.range 256).foldl
        (fun endPos i =>
          if 0 < (readTableAt (List.replicate 4096 0) i).length ∧
            (readTableAt (List.replicate 4096 0) i).offset < endPos
          then (readTableAt (List.replicate 4096 0) i).offset else endPos)
        (List.replicate (4096 : Nat) (0 : Nat)).length := rfl
    rw [hconv]
    rcases foldl_min_mem (fun i => readTableAt (List.replicate 4096 0) i) (List.range 256)
      (List.replicate (4096 : Nat) (0 : Nat)).length with h | ⟨b, _, hbl, _⟩
    · rw [h]
      exact List.length_replicate ..
    · rw [readTableAt_zeros] at hbl
      exact absurd hbl (by decide)
  rw [hend, scanFrom]
  rw [if_neg (by simp [indexSize])]

/-! ## Claims -/

/-- C1 (amended): for every sequence of `Put(k, v)` calls followed by
finalization, and for every key whose 32-bit hash is nonzero and whose first
occurrence has value `v`, `Get` on the finalized database returns `v`.
(The original claim, without the nonzero-hash condition, fails: see
`c1_counterexample`.) -/
theorem c1_roundtrip_first_put (ps : List (List Nat × List Nat)) (q v : List Nat)
    (file : List Nat) (hf : mkFile ps = some file) (hsz : sizeOk ps)
    (hh : cdbHash q ≠ 0) (hfind : ps.find? (fun x => x.1 == q) = some (q, v)) :
    mmapGet file q = some v := by
  rw [mkFile_eq_fileT] at hf
  obtain rfl : fileT ps = file := Option.some_inj.mp hf
  obtain ⟨off, d, _, _, _, hget, _⟩ := roundtrip_main ps q v hsz hh hfind
  exact hget

/-- C1 counterexample: the key `keyZ` hashes to 0; after `Put(keyZ, [1])`
and finalization (the first and only occurrence of `keyZ` has value `[1]`),
`Get(keyZ)` returns not found instead of `[1]`, because a slot whose hash
field is 0 is taken for empty. -/
theorem c1_counterexample :
    ([((keyZ : List Nat), ([1] : List Nat))].find? (fun x => x.1 == keyZ)
        = some (keyZ, [1])) ∧
    mkFile [(keyZ, [1])] = some (fileT [(keyZ, [1])]) ∧
    mmapGet (fileT [(keyZ, [1])]) keyZ = none := by
  refine ⟨by decide, mkFile_eq_fileT _, ?_⟩
  exact mmapGet_hash_zero _ keyZ (by decide)

theorem c1_witness :
    mmapGet (fileT [([65], [1]), ([66], [2, 3])]) [65] = some [1] :=
  c1_roundtrip_first_put [([65], [1]), ([66], [2, 3])] [65] [1]
    (fileT [([65], [1]), ([66], [2, 3])]) (mkFile_eq_fileT _) (by decide) (by decide)
    (by decide)

/-- C2: for every finalized database and every key not byte-equal to any
inserted key, `Get` returns not found. -/
theorem c2_absent_not_found (ps : List (List Nat × List Nat)) (q : List Nat)
    (file : List Nat) (hf : mkFile ps = some file) (hsz : sizeOk ps)
    (habs : ∀ p ∈ ps, p.1 ≠ q) :
    mmapGet file q = none := by
  rw [mkFile_eq_fileT] at hf
  obtain rfl : fileT ps = file := Option.some_inj.mp hf
  exact get_absent ps q hsz habs

theorem c2_witness :
    mmapGet (fileT [([65], [1]), ([66], [2, 3])]) [90] = none :=
  c2_absent_not_found [([65], [1]), ([66], [2, 3])] [90]
    (fileT [([65], [1]), ([66], [2, 3])]) (mkFile_eq_fileT _) (by decide) (by decide)

/-- C3 (amended): for every key put more than once whose 32-bit hash is
nonzero, `Get` on the finalized database returns the value of the first
`Put`.  (The original claim, without the nonzero-hash condition, fails: see
`c3_counterexample`.) -/
theorem c3_duplicate_first_wins (ps : List (List Nat × List Nat)) (q v : List Nat)
    (file : List Nat) (hf : mkFile ps = some file) (hsz : sizeOk ps)
    (hh : cdbHash q ≠ 0)
    (hdup : 2 ≤ (ps.filter fun x => x.1 == q).length)
    (hfind : ps.find? (fun x => x.1 == q) = some (q, v)) :
    mmapGet file q = some v := by
  rw [mkFile_eq_fileT] at hf
  obtain rfl : fileT ps = file := Option.some_inj.mp hf
  obtain ⟨off, d, _, _, _, hget, _⟩ := roundtrip_main ps q v hsz hh hfind
  exact hget

/-- C3 counterexample: `keyZ` hashes to 0; putting it twice with values
`[1]` then `[2]` and finalizing, `Get(keyZ)` returns not found, not `[1]`. -/
theorem c3_counterexample :
    (2 ≤ (([(keyZ, [1]), (keyZ, [2])] : List (List Nat × List Nat)).filter
        fun x => x.1 == keyZ).length) ∧
    ([((keyZ : List Nat), ([1] : List Nat)), (keyZ, [2])].find? (fun x => x.1 == keyZ)
        = some (keyZ, [1])) ∧
    mkFile [(keyZ, [1]), (keyZ, [2])] = some (fileT [(keyZ, [1]), (keyZ, [2])]) ∧
    mmapGet (fileT [(keyZ, [1]), (keyZ, [2])]) keyZ = none := by
  refine ⟨by decide, by decide, mkFile_eq_fileT _, ?_⟩
  exact mmapGet_hash_zero _ keyZ (by decide)

theorem c3_witness :
    mmapGet (fileT [([65], [1]), ([65], [2])]) [65] = some [1] :=
  c3_duplicate_first_wins [([65], [1]), ([65], [2])] [65] [1]
    (fileT [([65], [1]), ([65], [2])]) (mkFile_eq_fileT _) (by decide) (by decide)
    (by decide) (by decide)

/-- C4: scanning a finalized database yields exactly the inserted pairs, in
insertion order. -/
theorem c4_scan_insertion_order (ps : List (List Nat × List Nat)) (file : List Nat)
    (hf : mkFile ps = some file) (hsz : sizeOk ps) :
    scanAll file = ps := by
  rw [mkFile_eq_fileT] at hf
  obtain rfl : fileT ps = file := Option.some_inj.mp hf
  exact scanAll_fileT ps hsz

theorem c4_witness :
    scanAll (fileT [([65], [1]), ([66], [2, 3])]) = [([65], [1]), ([66], [2, 3])] :=
  c4_scan_insertion_order [([65], [1]), ([66], [2, 3])]
    (fileT [([65], [1]), ([66], [2, 3])]) (mkFile_eq_fileT _) (by decide)

/-- C6: the finalized file's size is `4096 + D + T`, with
`D = Σ (16 + |k| + |v|)` over the records and `T = 16 · Σ_b 2·n_b` over the
256 buckets. -/
theorem c6_file_size (ps : List (List Nat × List Nat)) :
    (mkFile ps).map List.length = some (4096 + dSize ps + tSize ps) := by
  rw [mkFile_eq_fileT, Option.map_some', fileT_length]
  rfl

/-- C7: in a finalized database, a non-empty bucket's head-index entry has
length `2·n_b`, and each of its `2·n_b` slots is either empty (hash field 0)
or holds the hash and offset of a record whose key's hash has low byte `b`. -/
theorem c7_bucket_invariant (ps : List (List Nat × List Nat)) (b : Nat)
    (file : List Nat) (hf : mkFile ps = some file) (hsz : sizeOk ps)
    (hb : b < 256) (hn : 0 < numRec ps b) :
    (readTableAt file b).length = 2 * numRec ps b ∧
    ∀ j < 2 * numRec ps b,
      (readTupleMmap file ((readTableAt file b).offset + 16 * j)).1 = 0 ∨
      ∃ r ∈ annot ps,
        (readTupleMmap file ((readTableAt file b).offset + 16 * j)).1 = cdbHash r.key ∧
        (readTupleMmap file ((readTableAt file b).offset + 16 * j)).2 = r.off ∧
        cdbHash r.key % 256 = b := by
  rw [mkFile_eq_fileT] at hf
  obtain rfl : fileT ps = file := Option.some_inj.mp hf
  have hn' : numRec ps b ≠ 0 := by omega
  have htab := readTableAt_fileT ps b hb hsz
  rw [if_neg hn'] at htab
  rw [htab]
  refine ⟨rfl, ?_⟩
  intro j hj
  have hread := readTuple_slot ps b hb hn' hsz j hj
  show (readTupleMmap (fileT ps) (tblOff ps b + 16 * j)).1 = 0 ∨ _
  rw [hread]
  have hjlen : j < (writtenTable ps b).length := by rw [writtenTable_length]; exact hj
  have hmem : (writtenTable ps b).getD j default ∈ writtenTable ps b := by
    rw [List.getD_eq_getElem _ _ hjlen]
    exact List.getElem_mem hjlen
  rcases writtenTable_mem ps b _ hmem with hdef | hbe
  · left
    rw [hdef]
    rfl
  · right
    obtain ⟨r, hrann, hre, hrb⟩ := bucketEntries_spec ps b _ hbe
    exact ⟨r, hrann, by rw [hre]; rfl, by rw [hre]; rfl, hrb⟩

theorem c7_witness :
    (readTableAt (fileT [([65], [1])]) 228).length = 2 * numRec [([65], [1])] 228 ∧
    ∀ j < 2 * numRec [([65], [1])] 228,
      (readTupleMmap (fileT [([65], [1])])
        ((readTableAt (fileT [([65], [1])]) 228).offset + 16 * j)).1 = 0 ∨
      ∃ r ∈ annot [([65], [1])],
        (readTupleMmap (fileT [([65], [1])])
          ((readTableAt (fileT [([65], [1])]) 228).offset + 16 * j)).1 = cdbHash r.key ∧
        (readTupleMmap (fileT [([65], [1])])
          ((readTableAt (fileT [([65], [1])]) 228).offset + 16 * j)).2 = r.off ∧
        cdbHash r.key % 256 = 228 :=
  c7_bucket_invariant [([65], [1])] 228 (fileT [([65], [1])]) (mkFile_eq_fileT _)
    (by decide) (by decide) (by decide)

/-- C9: `Mmap`/`NewInMemory` fail on contents shorter than 4096 bytes; on
exactly 4096 zero bytes opening succeeds, `Get` returns not found for every
key, and `All`/`Keys`/`Values` yield zero elements. -/
theorem c9_open_bound_and_empty_db :
    (∀ data : List Nat, data.length < 4096 → mmapOpen data = none) ∧
    mmapOpen (List.replicate 4096 0) = some (List.replicate 4096 0) ∧
    (∀ key, mmapGet (List.replicate 4096 0) key = none) ∧
    scanAll (List.replicate 4096 0) = [] ∧
    scanKeys (List.replicate 4096 0) = [] ∧
    scanValues (List.replicate 4096 0) = [] := by
  refine ⟨?_, ?_, mmapGet_zeros, scanAll_zeros, ?_, ?_⟩
  · intro data hlen
    rw [mmapOpen, if_pos ?_]
    show data.length < indexSize
    rw [indexSize]
    omega
  · rw [mmapOpen, if_neg ?_]
    rw [List.length_replicate, indexSize]
    omega
  · rw [scanKeys, scanAll_zeros]
    rfl
  · rw [scanValues, scanAll_zeros]
    rfl

theorem c9_witness :
    mmapOpen [0, 0] = none ∧ mmapGet (List.replicate 4096 0) [1] = none :=
  ⟨c9_open_bound_and_empty_db.1 [0, 0] (by decide),
   c9_open_bound_and_empty_db.2.2.1 [1]⟩

/-- C10: a key whose 32-bit hash is 0 cannot be found by `Get` even though
it was put before finalization (the reader and the writer both treat a slot
with hash field 0 as empty), yet its record is in the data region and is
yielded by the scanner. -/
theorem c10_zero_hash_key (ps : List (List Nat × List Nat)) (q v : List Nat)
    (file : List Nat) (hf : mkFile ps = some file) (hsz : sizeOk ps)
    (hmem : (q, v) ∈ ps) (h0 : cdbHash q = 0) :
    mmapGet file q = none ∧ (q, v) ∈ scanAll file := by
  rw [mkFile_eq_fileT] at hf
  obtain rfl : fileT ps = file := Option.some_inj.mp hf
  refine ⟨mmapGet_hash_zero _ q h0, ?_⟩
  rw [scanAll_fileT ps hsz]
  exact hmem

theorem c10_witness :
    mmapGet (fileT [(keyZ, [1, 2, 3])]) keyZ = none ∧
    (keyZ, [1, 2, 3]) ∈ scanAll (fileT [(keyZ, [1, 2, 3])]) :=
  c10_zero_hash_key [(keyZ, [1, 2, 3])] keyZ [1, 2, 3] (fileT [(keyZ, [1, 2, 3])])
    (mkFile_eq_fileT _) (by decide) (by decide) (by decide)

/-- C5 (code bug): on the 4096-byte contents `badData` — a corrupt head
index claiming a table of length 1 at offset `2^63` for bucket 5 — looking
up the empty key makes the reader slice `data[2^63 : 2^63+8]`, a Go runtime
panic: the `int(offset)+16 > len(data)` guard of `readTupleMmap` is bypassed
because the `uint64 → int` conversion of `2^63` is negative.  The claim says
such a read must yield not found, never a fault. -/
theorem c5_reader_faults_on_huge_offset :
    badData.length = 4096 ∧ mmapGetW badData [] = none := by
  have hlen : badData.length = 4096 := by
    rw [badData, List.length_append, List.length_append, List.length_append,
      List.length_replicate, List.length_replicate, le64_length, le64_length]
  refine ⟨hlen, ?_⟩
  have hdrop80 : badData.drop 80 = le64 (2 ^ 63) ++ (le64 1 ++ List.replicate 4000 0) := by
    rw [badData, List.append_assoc, List.append_assoc]
    rw [drop_append_ge _ _ 80 (by rw [List.length_replicate])]
    rw [List.length_replicate, Nat.sub_self, List.drop_zero]
  have hoff : readLE64 badData 80 = 2 ^ 63 := by
    apply readLE64_at badData 80 (2 ^ 63) (le64 1 ++ List.replicate 4000 0) ?_ (by norm_num)
    rw [hdrop80]
  have hlen1 : readLE64 badData 88 = 1 := by
    apply readLE64_at badData 88 1 (List.replicate 4000 0) ?_ (by norm_num)
    have h88 : badData.drop 88 = (badData.drop 80).drop 8 := by
      rw [List.drop_drop]
    rw [h88, hdrop80, drop_append_ge _ _ 8 (by simp [le64_length]), le64_length,
      Nat.sub_self, List.drop_zero]
  have htab : readTableAt badData 5 = ⟨2 ^ 63, 1⟩ := by
    rw [readTableAt]
    show table.mk (readLE64 badData 80) (readLE64 badData 88) = _
    rw [hoff, hlen1]
  have hrt : readTupleMmapW badData (2 ^ 63) = none := by
    rw [readTupleMmapW]
    rw [if_neg (by rw [hlen]; decide)]
    rw [if_neg (by rw [hlen]; decide)]
  have htw : readTableAtW badData (cdbHash [] % 256) = some ⟨2 ^ 63, 1⟩ := by
    rw [readTableAtW, if_pos (by rw [hlen]; decide)]
    show some (readTableAt badData 5) = _
    rw [htab]
  simp only [mmapGetW]
  rw [htw]
  show (if (1 : Nat) = 0 then some none
    else getProbeW badData (2 ^ 63) 1 (cdbHash []) [] 1 (cdbHash [] / 256 % 1)) = none
  rw [if_neg (by decide), Nat.mod_one]
  show getProbeW badData (2 ^ 63) 1 (cdbHash []) [] (0 + 1) 0 = none
  rw [getProbeW]
  have hso : ((2 : Nat) ^ 63 + 16 * 0) % 2 ^ 64 = 2 ^ 63 := by decide
  rw [hso, hrt]

/-- C8 (amended): the probe loop performs at most `table_length = 2·n_b`
steps in every case; for a successful lookup the number of probe steps is
one plus the cyclic probe distance from the key's start slot to the slot in
which open addressing placed the key's first record — not, as originally
claimed, the record's insertion-order position within its bucket (see
`c8_counterexample`). -/
theorem c8_probe_steps (ps : List (List Nat × List Nat)) (q : List Nat)
    (file : List Nat) (hf : mkFile ps = some file) (hsz : sizeOk ps) :
    mmapGetSteps file q ≤ 2 * numRec ps (cdbHash q % 256) ∧
    (∀ v, cdbHash q ≠ 0 → ps.find? (fun x => x.1 == q) = some (q, v) →
      ∃ off d,
        (annot ps).find? (fun r => r.key == q) = some ⟨q, v, off⟩ ∧
        d < 2 * numRec ps (cdbHash q % 256) ∧
        (writtenTable ps (cdbHash q % 256)).getD
          ((cdbHash q / 256 % (2 * numRec ps (cdbHash q % 256)) + d) %
            (2 * numRec ps (cdbHash q % 256))) default = ⟨cdbHash q, off⟩ ∧
        mmapGet file q = some v ∧
        mmapGetSteps file q = d + 1) := by
  rw [mkFile_eq_fileT] at hf
  obtain rfl : fileT ps = file := Option.some_inj.mp hf
  constructor
  · have hb256 : cdbHash q % 256 < 256 := Nat.mod_lt _ (by norm_num)
    have htab := readTableAt_fileT ps (cdbHash q % 256) hb256 hsz
    show (if (readTableAt (fileT ps) (cdbHash q % 256)).length = 0 then 0
      else getProbeSteps (fileT ps) (readTableAt (fileT ps) (cdbHash q % 256)).offset
        (readTableAt (fileT ps) (cdbHash q % 256)).length (cdbHash q) q
        (readTableAt (fileT ps) (cdbHash q % 256)).length
        (cdbHash q / 256 % (readTableAt (fileT ps) (cdbHash q % 256)).length))
      ≤ 2 * numRec ps (cdbHash q % 256)
    by_cases hn : numRec ps (cdbHash q % 256) = 0
    · rw [htab, if_pos hn]
      show (if (0 : Nat) = 0 then 0 else _) ≤ _
      rw [if_pos rfl]
      omega
    · rw [htab, if_neg hn]
      show (if 2 * numRec ps (cdbHash q % 256) = 0 then 0 else _) ≤ _
      rw [if_neg (by omega)]
      exact getProbeSteps_le _ _ _ _ _ _ _
  · intro v hh hfind
    exact roundtrip_main ps q v hsz hh hfind

/-- C8 counterexample: in the database built from `Put("aa", [1])` then
`Put("ii", [2])` both keys land in bucket 37, so `"ii"`'s record has
insertion-order position 2 in its bucket; but `"ii"` probes a different
start slot than `"aa"` and is found in 1 step, not 2. -/
theorem c8_counterexample :
    mkFile [([97, 97], [1]), ([105, 105], [2])]
        = some (fileT [([97, 97], [1]), ([105, 105], [2])]) ∧
    posInBucket [([97, 97], [1]), ([105, 105], [2])] [105, 105] = 2 ∧
    mmapGetSteps (fileT [([97, 97], [1]), ([105, 105], [2])]) [105, 105] = 1 ∧
    (1 : Nat) ≠ 2 := by
  refine ⟨mkFile_eq_fileT _, by decide, ?_, by decide⟩
  have hsz : sizeOk [([97, 97], [1]), ([105, 105], [2])] := by decide
  have hn : numRec [([97, 97], [1]), ([105, 105], [2])] 37 ≠ 0 := by decide
  have hb : cdbHash [105, 105] % 256 = 37 := by decide
  have htab := readTableAt_fileT [([97, 97], [1]), ([105, 105], [2])] 37 (by decide) hsz
  rw [if_neg hn] at htab
  have hnum : numRec [([97, 97], [1]), ([105, 105], [2])] 37 = 2 := by decide
  have hslotv : (writtenTable [([97, 97], [1]), ([105, 105], [2])] 37).getD 3 default
      = ⟨5861157, 4115⟩ := by decide
  have hread := readTuple_slot [([97, 97], [1]), ([105, 105], [2])] 37 (by decide) hn hsz 3
    (by rw [hnum]; omega)
  rw [hslotv] at hread
  have hgv : getValueAt (fileT [([97, 97], [1]), ([105, 105], [2])]) 4115 [105, 105]
      = some [2] := by
    have hr : (⟨[105, 105], [2], 4115⟩ : recInfo) ∈ annot [([97, 97], [1]), ([105, 105], [2])] := by
      decide
    have := getValueAt_entry [([97, 97], [1]), ([105, 105], [2])] hsz ⟨[105, 105], [2], 4115⟩ hr
      [105, 105]
    simp only at this
    rw [this]
    simp
  have hsteps : getProbeSteps (fileT [([97, 97], [1]), ([105, 105], [2])])
      (tblOff [([97, 97], [1]), ([105, 105], [2])] 37) 4 (cdbHash [105, 105]) [105, 105] 4 3
      = 0 + 1 := by
    apply getProbeSteps_success _ _ 4 _ _ [2] (by decide) 0 4 3 (by omega) (by omega)
      (fun t ht => by omega)
    · show (readTupleMmap (fileT [([97, 97], [1]), ([105, 105], [2])])
        (tblOff [([97, 97], [1]), ([105, 105], [2])] 37 + 16 * ((3 + 0) % 4))).1
          = cdbHash [105, 105]
      have h30 : (3 + 0) % 4 = 3 := by decide
      rw [h30, hread]
      decide
    · show getValueAt _ (readTupleMmap (fileT [([97, 97], [1]), ([105, 105], [2])])
        (tblOff [([97, 97], [1]), ([105, 105], [2])] 37 + 16 * ((3 + 0) % 4))).2 [105, 105]
          = some [2]
      have h30 : (3 + 0) % 4 = 3 := by decide
      rw [h30, hread]
      exact hgv
  show (if (readTableAt (fileT [([97, 97], [1]), ([105, 105], [2])])
      (cdbHash [105, 105] % 256)).length = 0 then 0
    else getProbeSteps (fileT [([97, 97], [1]), ([105, 105], [2])])
      (readTableAt (fileT [([97, 97], [1]), ([105, 105], [2])])
        (cdbHash [105, 105] % 256)).offset
      (readTableAt (fileT [([97, 97], [1]), ([105, 105], [2])])
        (cdbHash [105, 105] % 256)).length (cdbHash [105, 105]) [105, 105]
      (readTableAt (fileT [([97, 97], [1]), ([105, 105], [2])])
        (cdbHash [105, 105] % 256)).length
      (cdbHash [105, 105] / 256 %
        (readTableAt (fileT [([97, 97], [1]), ([105, 105], [2])])
          (cdbHash [105, 105] % 256)).length)) = 1
  rw [hb, htab, hnum]
  show (if (4 : Nat) = 0 then 0
    else getProbeSteps (fileT [([97, 97], [1]), ([105, 105], [2])])
      (tblOff [([97, 97], [1]), ([105, 105], [2])] 37) 4 (cdbHash [105, 105]) [105, 105] 4
      (cdbHash [105, 105] / 256 % 4)) = 1
  rw [if_neg (by decide)]
  have hstart : cdbHash [105, 105] / 256 % 4 = 3 := by decide
  rw [hstart, hsteps]

theorem c8_witness :
    mmapGetSteps (fileT [([65], [1])]) [65] ≤ 2 * numRec [([65], [1])] (cdbHash [65] % 256) ∧
    (∀ v, cdbHash [65] ≠ 0 →
      ([(([65] : List Nat), ([1] : List Nat))].find? fun x => x.1 == [65]) = some ([65], v) →
      ∃ off d,
        (annot [([65], [1])]).find? (fun r => r.key == [65]) = some ⟨[65], v, off⟩ ∧
        d < 2 * numRec [([65], [1])] (cdbHash [65] % 256) ∧
        (writtenTable [([65], [1])] (cdbHash [65] % 256)).getD
          ((cdbHash [65] / 256 % (2 * numRec [([65], [1])] (cdbHash [65] % 256)) + d) %
            (2 * numRec [([65], [1])] (cdbHash [65] % 256))) default
          = ⟨cdbHash [65], off⟩ ∧
        mmapGet (fileT [([65], [1])]) [65] = some v ∧
        mmapGetSteps (fileT [([65], [1])]) [65] = d + 1) :=
  c8_probe_steps [([65], [1])] [65] (fileT [([65], [1])]) (mkFile_eq_fileT _) (by decide)
